import Mathlib

/-!
# angryfoxdb: wire protocol, dispatcher and key locking

A shallow embedding of `src/protocol.go` and `src/commands.go`.

* Byte strings (`[]byte`, `string`) are lists of bytes; Go `int` is `Int`, wrapped to 64 bits
  where the program computes with it.
* Every `w <- frame` on the session's outbound channel is one entry of a frame list.
* Locking, handler calls and batch commits are recorded as events of a trace.
* A Go run-time panic is an explicit outcome.
* A slice is the list of its elements together with what its backing array holds behind them,
  where the program may slice beyond the length.
* The connection delivers a finite list of segments, one per read, and then reports the end of
  the stream; `c.r` is a `bufio.Reader` with a buffer of 4096 bytes over it.
* What lives in other packages (`bufio`, `bytes`, `strconv`, `bconv`, the storage engine) is
  modelled by its documented behaviour or taken as a parameter, and so are the handlers whose
  bodies are in other files.
* Loops are functions with a fuel argument. The theorems of the section on fuel show that
  every caller hands over enough of it.
* The store is what `DB.Get` answers for a key and, for the iterator, the list of its keys in
  ascending order; what a handler stages in the write batch is a list of operations.
* The queue task runs against a schedule that names the case every `select` takes.
-/

namespace AngryFox

/-! ## Bytes and decimal conversion -/

/-- A Go byte slice or string, as the list of its bytes. -/
abbrev Bytes := List UInt8

/-- The bytes of an ASCII literal. -/
def bs (s : String) : Bytes := s.toList.map (fun c => UInt8.ofNat c.toNat)

/-- Carriage return, line feed. -/
def crlf : Bytes := [13, 10]

/-- The digit loop of the decimal conversion: the digits of `n` are put in front of `acc`, the
least significant first. A number below `10 ^ fuel` needs no more than `fuel` rounds. -/
def natDigitsAux : Nat → Nat → Bytes → Bytes
  | 0, _, acc => acc
  | fuel + 1, n, acc =>
    if n < 10 then UInt8.ofNat (48 + n) :: acc
    else natDigitsAux fuel (n / 10) (UInt8.ofNat (48 + n % 10) :: acc)

/-- Decimal digits of a natural number, most significant first, as ASCII bytes. -/
def natDigits (n : Nat) : Bytes := natDigitsAux (n + 1) n []

/-- The Go call `strconv.AppendInt(dst, n, 10)`. -/
def appendInt (dst : Bytes) (n : Int) : Bytes :=
  if n < 0 then dst ++ 45 :: natDigits n.natAbs else dst ++ natDigits n.natAbs

/-! ## Reply values and the reply encoder (`protocol.go`, lines 235-316) -/

/-- The dynamic types a handler may return as `interface{}`. -/
inductive Reply where
  /-- the untyped `nil` interface value -/
  | nilValue
  /-- a `rawReply` -/
  | raw (b : Bytes)
  /-- a `string` -/
  | str (s : Bytes)
  /-- a `[]byte`; `none` is the nil slice -/
  | bulk (b : Option Bytes)
  /-- an `int`, `int64` or `uint32` -/
  | int (n : Int)
  /-- an `IOError` with its message -/
  | ioError (msg : Bytes)
  /-- any other `error` with its message -/
  | error (msg : Bytes)
  /-- the nil `[]interface{}` -/
  | nilMulti
  /-- a non-nil `[]interface{}` -/
  | multi (items : List Reply)
  /-- a `*cmdReplyStream`: the announced size and the items sent on its channel before it closes -/
  | stream (size : Int) (items : List Reply)
  /-- a `map[string]bool`, its keys in the order the iteration visits them -/
  | stringMap (keys : List Bytes)
  /-- a value of any other dynamic type -/
  | invalid
deriving Repr

/-- The test `res.(error)` of `runCommand`: both `IOError` and plain errors satisfy it. -/
def Reply.isError : Reply → Bool
  | Reply.ioError _ => true
  | Reply.error _ => true
  | _ => false

/-- Frames sent by an encoder call, and whether the call returned (`false`: it panicked). -/
abbrev Sent := List Bytes × Bool

/-- Sequencing of two encoder steps: the second runs only when the first returned. -/
def Sent.andThen (a : Sent) (b : Sent) : Sent :=
  if a.2 then (a.1 ++ b.1, b.2) else a

/-- `writeError`: one frame `-ERR <msg>\r\n`. -/
def writeError (msg : Bytes) : List Bytes := [bs "-ERR " ++ msg ++ crlf]

/-- `writeProtocolError`. -/
def writeProtocolError (msg : Bytes) : List Bytes := writeError (bs "Protocol error: " ++ msg)

/-- `writeInt`: one frame `:<n>\r\n`. -/
def writeInt (n : Int) : List Bytes := [appendInt [58] n ++ crlf]

/-- `writeBulk`. The nil branch sends `$-1\r\n` and, having no `return`, falls through to the
three frames of the general case (`len(nil)` is 0 and the nil slice is sent as an empty frame). -/
def writeBulk (b : Option Bytes) : List Bytes :=
  (match b with
   | none => [bs "$-1\r\n"]
   | some _ => []) ++
  [appendInt [36] (Int.ofNat (b.getD []).length) ++ crlf, b.getD [], crlf]

/-- `writeMultibulkLength`: one frame `*<n>\r\n`. -/
def writeMultibulkLength (n : Int) : List Bytes := [appendInt [42] n ++ crlf]

/-- `writeMultibulkStringMap`. -/
def writeMultibulkStringMap (keys : List Bytes) : List Bytes :=
  writeMultibulkLength (Int.ofNat keys.length) ++ (keys.map (fun k => writeBulk (some k))).flatten

mutual
/-- `writeReply`. -/
def writeReply : Reply → Sent
  | Reply.nilValue => ([bs "$-1\r\n"], true)
  | Reply.raw r => ([r], true)
  | Reply.str r => ([bs "+" ++ r ++ crlf], true)
  | Reply.bulk r => (writeBulk r, true)
  | Reply.int n => (writeInt n, true)
  | Reply.ioError msg => ([bs "-IOERR " ++ msg ++ crlf], true)
  | Reply.error msg => (writeError msg, true)
  | Reply.nilMulti =>
      -- `writeMultibulk` with a nil slice: the `-1` header, then (no `return`) the general case
      (writeMultibulkLength (-1) ++ writeMultibulkLength 0, true)
  | Reply.multi items =>
      -- `writeMultibulk` with a non-nil slice
      Sent.andThen (writeMultibulkLength (Int.ofNat items.length), true) (writeReplies items)
  | Reply.stream size items =>
      -- `writeMultibulkStream`
      Sent.andThen (writeMultibulkLength size, true) (writeReplies items)
  | Reply.stringMap keys => (writeMultibulkStringMap keys, true)
  | Reply.invalid => ([], false)
/-- The loops `for _, r := range reply { writeReply(w, r) }`. -/
def writeReplies : List Reply → Sent
  | [] => ([], true)
  | r :: rs => Sent.andThen (writeReply r) (writeReplies rs)
end

/-! ## Machine integers and slices -/

/-- Two's-complement wrap of a result of Go `int` arithmetic (64 bits). -/
def wrapInt (x : Int) : Int := (x + 2 ^ 63) % 2 ^ 64 - 2 ^ 63

/-- The slice expression `s[lo:hi]` on a slice with visible elements `elems` whose backing array
still holds `spare` behind them (so `cap(s) = len(elems) + len(spare)`). `none` is the run-time
panic for bounds out of range. -/
def sliceExpr {α : Type} (elems spare : List α) (lo hi : Int) : Option (List α) :=
  if 0 ≤ lo ∧ lo ≤ hi ∧ hi ≤ Int.ofNat (elems.length + spare.length) then
    some (((elems ++ spare).drop lo.toNat).take (hi.toNat - lo.toNat))
  else none

/-! ## Command descriptors (`commands.go`, lines 58-148) -/

/-- A handler `cmdFunc`: it gets the arguments after the command name and, for a write command,
a write batch (`true`), else the nil batch. `none` stands for a handler that panics. -/
abbrev cmdFunc := List Bytes → Bool → Option Reply

/-- The struct `cmdDesc`. -/
structure cmdDesc where
  name : Bytes
  function : cmdFunc
  arity : Int
  writes : Bool
  firstKey : Int
  lastKey : Int
  keyStep : Int
  keyLookup : Option (List Bytes → List Bytes)

/-- `ReplyOK`. -/
def ReplyOK : Reply := Reply.raw (bs "+OK\r\n")

/-- `ReplyPONG`. -/
def ReplyPONG : Reply := Reply.raw (bs "+PONG\r\n")

/-- The handler `Ping`. -/
def Ping : cmdFunc := fun _ _ => some ReplyPONG

/-- The handler `Echo`: `return args[0]`, an index panic without arguments. -/
def Echo : cmdFunc := fun args _ =>
  match args with
  | [] => none
  | a :: _ => some (Reply.bulk (some a))

/-- The handler `Select`. -/
def Select : cmdFunc := fun _ _ => some ReplyOK

/-- The table `commandList`. Handlers whose bodies are in other files are taken from `h` by
their Go name, and `zkeys` is `ZunionInterKeys`. -/
def commandList (h : String → cmdFunc) (zkeys : List Bytes → List Bytes) : List cmdDesc :=
  [
    ⟨bs "del", (h "Del"), (-1), true, 0, (-1), 1, none⟩,
    ⟨bs "echo", Echo, 1, false, (-1), 0, 0, none⟩,
    ⟨bs "exists", (h "Exists"), 1, false, 0, 0, 0, none⟩,
    ⟨bs "get", (h "Get"), 1, false, 0, 0, 0, none⟩,
    ⟨bs "hdel", (h "Hdel"), (-2), true, 0, 0, 0, none⟩,
    ⟨bs "hexists", (h "Hexists"), 2, false, 0, 0, 0, none⟩,
    ⟨bs "hget", (h "Hget"), 2, false, 0, 0, 0, none⟩,
    ⟨bs "hgetall", (h "Hgetall"), 1, false, 0, 0, 0, none⟩,
    ⟨bs "hincrby", (h "Hincrby"), 3, true, 0, 0, 0, none⟩,
    ⟨bs "hincrbyfloat", (h "Hincrbyfloat"), 3, true, 0, 0, 0, none⟩,
    ⟨bs "hkeys", (h "Hkeys"), 1, false, 0, 0, 0, none⟩,
    ⟨bs "hlen", (h "Hlen"), 1, false, 0, 0, 0, none⟩,
    ⟨bs "hmget", (h "Hmget"), (-2), false, 0, 0, 0, none⟩,
    ⟨bs "hmset", (h "Hmset"), (-3), true, 0, 0, 0, none⟩,
    ⟨bs "hset", (h "Hset"), 3, true, 0, 0, 0, none⟩,
    ⟨bs "hsetnx", (h "Hsetnx"), 3, true, 0, 0, 0, none⟩,
    ⟨bs "hvals", (h "Hvals"), 1, false, 0, 0, 0, none⟩,
    ⟨bs "keys", (h "Keys"), 1, false, (-1), 0, 0, none⟩,
    ⟨bs "llen", (h "Llen"), 1, false, 0, 0, 0, none⟩,
    ⟨bs "lpush", (h "Lpush"), (-2), true, 0, 0, 0, none⟩,
    ⟨bs "lpushx", (h "Lpushx"), 2, true, 0, 0, 0, none⟩,
    ⟨bs "rpush", (h "Rpush"), (-2), true, 0, 0, 0, none⟩,
    ⟨bs "rpushx", (h "Rpushx"), 2, true, 0, 0, 0, none⟩,
    ⟨bs "lpop", (h "Lpop"), 1, true, 0, 0, 0, none⟩,
    ⟨bs "rpop", (h "Rpop"), 1, true, 0, 0, 0, none⟩,
    ⟨bs "rpoplpush", (h "Rpoplpush"), 2, true, 0, 1, 0, none⟩,
    ⟨bs "lrange", (h "Lrange"), 3, false, 0, 0, 0, none⟩,
    ⟨bs "ping", Ping, 0, false, (-1), 0, 0, none⟩,
    ⟨bs "append", (h "Append"), 2, true, 0, 0, 0, none⟩,
    ⟨bs "set", (h "Set"), 2, true, 0, 0, 0, none⟩,
    ⟨bs "sadd", (h "Sadd"), (-2), true, 0, 0, 0, none⟩,
    ⟨bs "scard", (h "Scard"), 1, false, 0, 0, 0, none⟩,
    ⟨bs "sismember", (h "Sismember"), 2, false, 0, 0, 0, none⟩,
    ⟨bs "smembers", (h "Smembers"), 1, false, 0, 0, 0, none⟩,
    ⟨bs "smove", (h "Smove"), 3, true, 0, 1, 0, none⟩,
    ⟨bs "spop", (h "Spop"), 1, true, 0, 0, 0, none⟩,
    ⟨bs "srem", (h "Srem"), (-2), true, 0, 0, 0, none⟩,
    ⟨bs "sunion", (h "Sunion"), (-1), false, 0, (-1), 1, none⟩,
    ⟨bs "sunionstore", (h "Sunionstore"), (-2), true, 0, (-1), 1, none⟩,
    ⟨bs "sinter", (h "Sinter"), (-1), false, 0, (-1), 1, none⟩,
    ⟨bs "sinterstore", (h "Sinterstore"), (-2), true, 0, (-1), 1, none⟩,
    ⟨bs "sdiff", (h "Sdiff"), (-1), false, 0, (-1), 1, none⟩,
    ⟨bs "sdiffstore", (h "Sdiffstore"), (-2), true, 0, (-1), 1, none⟩,
    ⟨bs "time", (h "Time"), 0, false, (-1), 0, 0, none⟩,
    ⟨bs "type", (h "Type"), 1, false, 0, 0, 0, none⟩,
    ⟨bs "zadd", (h "Zadd"), (-3), true, 0, 0, 0, none⟩,
    ⟨bs "zcard", (h "Zcard"), 1, false, 0, 0, 0, none⟩,
    ⟨bs "zincrby", (h "Zincrby"), 3, true, 0, 0, 0, none⟩,
    ⟨bs "zrange", (h "Zrange"), (-3), false, 0, 0, 0, none⟩,
    ⟨bs "zrem", (h "Zrem"), (-2), true, 0, 0, 0, none⟩,
    ⟨bs "zrevrange", (h "Zrevrange"), (-3), false, 0, 0, 0, none⟩,
    ⟨bs "zrangebyscore", (h "Zrangebyscore"), (-3), false, 0, 0, 0, none⟩,
    ⟨bs "zrevrangebyscore", (h "Zrevrangebyscore"), (-3), false, 0, 0, 0, none⟩,
    ⟨bs "zremrangebyscore", (h "Zremrangebyscore"), 3, true, 0, 0, 0, none⟩,
    ⟨bs "zcount", (h "Zcount"), 3, false, 0, 0, 0, none⟩,
    ⟨bs "zscore", (h "Zscore"), 2, false, 0, 0, 0, none⟩,
    ⟨bs "zrank", (h "Zrank"), 2, false, 0, 0, 0, none⟩,
    ⟨bs "zrevrank", (h "Zrevrank"), 2, false, 0, 0, 0, none⟩,
    ⟨bs "zunionstore", (h "Zunionstore"), (-3), true, 0, 0, 0, some zkeys⟩,
    ⟨bs "zinterstore", (h "Zinterstore"), (-3), true, 0, 0, 0, some zkeys⟩,
    ⟨bs "restore", (h "Restore"), 3, true, 0, 0, 0, none⟩,
    ⟨bs "dump", (h "Dump"), 1, false, 0, 0, 0, none⟩,
    ⟨bs "migrate", (h "Migrate"), 5, true, 2, 2, 0, none⟩,
    ⟨bs "select", Select, 1, false, 0, 0, 0, none⟩
  ]

/-- The map `commands` filled by `init`: of two entries with one name the later one stays. -/
def commands (table : List cmdDesc) (name : Bytes) : Option cmdDesc :=
  table.reverse.find? (fun c => c.name == name)

/-! ## Key extraction and locking (`commands.go`, lines 150-195) -/

/-- The loop `keyloop` of `getKeys`, `i` being the loop variable and `keys` the keys kept so far.
Each round that does not panic has `0 ≤ i < len(args)` and a larger `i` than the round before,
so `len(args) + 1` rounds of fuel are never used up. -/
def keyLoop (c : cmdDesc) (args : List Bytes) : Nat → Int → List Bytes → Option (List Bytes)
  | 0, _, _ => none
  | fuel + 1, i, keys =>
    if i < Int.ofNat args.length ∧ (c.lastKey = -1 ∨ i ≤ c.lastKey) then
      if i < 0 then none
      else
        let a := args.getD i.toNat []
        keyLoop c args fuel (wrapInt (i + c.keyStep)) (if keys.contains a then keys else keys ++ [a])
    else some keys

/-- `cmdDesc.getKeys` on the slice `args` with spare capacity `spare`; `none` is a panic. -/
def getKeys (c : cmdDesc) (args spare : List Bytes) : Option (List Bytes) :=
  match c.keyLookup with
  | some f => some (f args)
  | none =>
    if c.firstKey < 0 ∨ Int.ofNat args.length ≤ c.firstKey then some []
    else if c.keyStep ≤ 1 then sliceExpr args spare c.firstKey (wrapInt (c.lastKey + 1))
    else keyLoop c args (args.length + 1) c.firstKey []

/-- What a command execution does that is visible outside the handler. -/
inductive Event where
  /-- `w <- frame` on the session's outbound channel -/
  | send (frame : Bytes)
  /-- `KeyMutex.Lock(key)`; the trace records the call, not whether it has to wait -/
  | lock (key : Bytes)
  /-- `KeyMutex.Unlock(key)` -/
  | unlock (key : Bytes)
  /-- `command.function(args, wb)` of the named command; `batch` tells whether `wb` is non-nil -/
  | call (name : Bytes) (args : List Bytes) (batch : Bool)
  /-- `DB.Write(DefaultWriteOptions, wb)` -/
  | commit
deriving DecidableEq, Repr

/-- `cmdDesc.lockKeys`: the locks taken, in order; `none` when `getKeys` panics. -/
def lockKeys (c : cmdDesc) (args spare : List Bytes) : Option (List Event) :=
  if !c.writes then some []
  else (getKeys c args spare).map (fun keys => keys.map Event.lock)

/-- `cmdDesc.unlockKeys`: the locks released, in order; `none` when `getKeys` panics. -/
def unlockKeys (c : cmdDesc) (args spare : List Bytes) : Option (List Event) :=
  if !c.writes then some []
  else (getKeys c args spare).map (fun keys => keys.map Event.unlock)

/-! ## Command execution (`protocol.go`, lines 93-133) -/

/-- How a call of `runCommand` ends. -/
inductive Outcome where
  /-- it returned a nil error: the read loop goes on -/
  | ok
  /-- it returned the error of the failed commit: the read loop returns -/
  | failed (msg : Bytes)
  /-- a run-time panic -/
  | panicked
deriving DecidableEq, Repr

/-- What `runCommand` takes from outside `protocol.go` and `commands.go`. -/
structure Env where
  /-- `bytes.ToLower` -/
  toLower : Bytes → Bytes
  /-- the contents of `commandList` -/
  table : List cmdDesc
  /-- the result of `DB.Write` for the batch the handler filled on these arguments:
  `none` for success, else the error's message -/
  dbWrite : List Bytes → Option Bytes

/-- The arity test of `runCommand`, `n` being `len(args)` with the command name counted. -/
def arityRejects (arity : Int) (n : Nat) : Bool :=
  (decide (arity < 0) && decide (Int.ofNat n - 1 < wrapInt (-arity))) ||
  (decide (arity ≥ 0) && decide (Int.ofNat n - 1 > arity))

/-- The frames of an encoder call as events. -/
def sends (frames : List Bytes) : List Event := frames.map Event.send

/-- The closure `runCommand` of `protocolHandler`, on the slice `args` with spare capacity
`spare`: the trace of what it does, and how it ends. -/
def runCommand (env : Env) (args spare : List Bytes) : List Event × Outcome :=
  match args with
  | [] => (sends (writeProtocolError (bs "missing command")), Outcome.ok)
  | name :: rest =>
    match commands env.table (env.toLower name) with
    | none => (sends (writeError (bs "unknown command '" ++ name ++ bs "'")), Outcome.ok)
    | some command =>
      if arityRejects command.arity args.length then
        (sends (writeError (bs "wrong number of arguments for '" ++ name ++ bs "' command")),
          Outcome.ok)
      else
        match lockKeys command rest spare with
        | none => ([], Outcome.panicked)
        | some locks =>
          let called := locks ++ [Event.call command.name rest command.writes]
          match command.function rest command.writes with
          | none => (called, Outcome.panicked)
          | some res =>
            let written := if command.writes && !res.isError then [Event.commit] else []
            let err := if command.writes && !res.isError then env.dbWrite rest else none
            match err with
            | some msg =>
              (called ++ written ++ sends (writeError (bs "data write error: " ++ msg)),
                Outcome.failed msg)
            | none =>
              match unlockKeys command rest spare with
              | none => (called ++ written, Outcome.panicked)
              | some unlocks =>
                let reply := writeReply res
                (called ++ written ++ unlocks ++ sends reply.1,
                  if reply.2 then Outcome.ok else Outcome.panicked)

/-- ASCII lower-casing: what `bytes.ToLower` does to a byte string of ASCII characters. -/
def asciiLower (b : Bytes) : Bytes :=
  b.map (fun x => if 65 ≤ x ∧ x ≤ 90 then x + 32 else x)

/-! ## The buffered reader of a session (`bufio.Reader` over the connection) -/

/-- Size of the buffer `bufio.NewReader` allocates. -/
def bufSize : Nat := 4096

/-- The state of `c.r`: the bytes buffered and not yet consumed, and the segments the connection
still delivers, one per `Read` of the connection (less when the caller has less room); after
the last segment the connection reports end of stream. -/
structure Reader where
  buf : Bytes
  conn : List Bytes

/-- The reader after a read error: nothing buffered, nothing to come. -/
def Reader.closed : Reader := ⟨[], []⟩

/-- One `Read` of the connection into `n` free bytes: the bytes it returns and the segments
left; `none` at end of stream. The connection blocks rather than return no bytes. -/
def connRead (n : Nat) : List Bytes → Option (Bytes × List Bytes)
  | [] => none
  | seg :: rest =>
    if seg.isEmpty then connRead n rest
    else some (seg.take n, if seg.length ≤ n then rest else seg.drop n :: rest)

/-- `bufio.Reader.fill`: one read of the connection into the free part of the buffer. -/
def Reader.fill (r : Reader) : Option Reader :=
  match connRead (bufSize - r.buf.length) r.conn with
  | none => none
  | some (d, conn) => some ⟨r.buf ++ d, conn⟩

/-- `Peek(1)`: the next byte, not consumed; `none` on a read error. -/
def Reader.peek1 (r : Reader) : Option UInt8 × Reader :=
  match r.buf with
  | b :: _ => (some b, r)
  | [] =>
    match r.fill with
    | none => (none, Reader.closed)
    | some r1 => (r1.buf.head?, r1)

/-- `ReadByte`: `none` on a read error. -/
def Reader.readByte (r : Reader) : Option UInt8 × Reader :=
  match r.buf with
  | b :: rest => (some b, ⟨rest, r.conn⟩)
  | [] =>
    match r.fill with
    | none => (none, Reader.closed)
    | some r1 => (r1.buf.head?, ⟨r1.buf.tail, r1.conn⟩)

/-- The bytes up to and with the first `delim`, and the bytes after it. -/
def splitAtDelim (delim : UInt8) : Bytes → Option (Bytes × Bytes)
  | [] => none
  | x :: xs =>
    if x = delim then some ([x], xs)
    else
      match splitAtDelim delim xs with
      | none => none
      | some (a, b) => some (x :: a, b)

/-- How `ReadSlice` ends: delimiter found, `ErrBufferFull`, or a read error. -/
inductive SliceEnd where
  | found
  | bufferFull
  | readError
deriving DecidableEq, Repr

/-- `ReadSlice(delim)`. Every round without the delimiter adds a byte to the buffer or ends the
loop, so `bufSize + 1` rounds of fuel are never used up. -/
def Reader.readSlice (delim : UInt8) : Nat → Reader → Bytes × SliceEnd × Reader
  | 0, r => ([], SliceEnd.readError, r)
  | fuel + 1, r =>
    match splitAtDelim delim r.buf with
    | some (line, rest) => (line, SliceEnd.found, ⟨rest, r.conn⟩)
    | none =>
      if r.buf.length ≥ bufSize then (r.buf, SliceEnd.bufferFull, ⟨[], r.conn⟩)
      else
        match r.fill with
        | none => (r.buf, SliceEnd.readError, Reader.closed)
        | some r1 => Reader.readSlice delim fuel r1

/-- `ReadLine`: the line without its end-of-line bytes and the flag `isPrefix`; `none` on a
read error with no byte read. -/
def Reader.readLine (r : Reader) : Option (Bytes × Bool) × Reader :=
  match r.readSlice 10 (bufSize + 1) with
  | (line, SliceEnd.bufferFull, r1) =>
    if line.getLast? = some 13 then (some (line.dropLast, true), ⟨13 :: r1.buf, r1.conn⟩)
    else (some (line, true), r1)
  | (line, SliceEnd.readError, r1) =>
    if line.isEmpty then (none, r1) else (some (line, false), r1)
  | (line, SliceEnd.found, r1) =>
    let body := line.dropLast
    if body.getLast? = some 13 then (some (body.dropLast, false), r1)
    else (some (body, false), r1)

/-- `ReadBytes(delim)`: the bytes up to and with the delimiter; `none` on a read error. A round
that goes on has taken a full buffer from the stream. -/
def Reader.readBytes (delim : UInt8) : Nat → Reader → Option Bytes × Reader
  | 0, r => (none, r)
  | fuel + 1, r =>
    match r.readSlice delim (bufSize + 1) with
    | (frag, SliceEnd.found, r1) => (some frag, r1)
    | (_, SliceEnd.readError, r1) => (none, r1)
    | (frag, SliceEnd.bufferFull, r1) =>
      match Reader.readBytes delim fuel r1 with
      | (none, r2) => (none, r2)
      | (some more, r2) => (some (frag ++ more), r2)

/-- `Read(p)` with `len(p) = k > 0`: at most one read of the connection, so fewer than `k`
bytes may come back; `none` on a read error. -/
def Reader.read (k : Nat) (r : Reader) : Option Bytes × Reader :=
  match r.buf with
  | [] =>
    if k ≥ bufSize then
      match connRead k r.conn with
      | none => (none, Reader.closed)
      | some (d, conn) => (some d, ⟨[], conn⟩)
    else
      match r.fill with
      | none => (none, Reader.closed)
      | some r1 => (some (r1.buf.take k), ⟨r1.buf.drop k, r1.conn⟩)
  | _ :: _ => (some (r.buf.take k), ⟨r.buf.drop k, r.conn⟩)

/-- `io.ReadFull(c.r, p)` with `k` bytes of `p` still to fill: `Read` is called until `p` is
full; `none` on a read error. Each round reads a byte at least, so `k` rounds of fuel do. -/
def Reader.readFull : Nat → Nat → Reader → Option Bytes × Reader
  | _, 0, r => (some [], r)
  | 0, _ + 1, r => (none, r)
  | fuel + 1, k + 1, r =>
    match r.read (k + 1) with
    | (none, r1) => (none, r1)
    | (some d, r1) =>
      match Reader.readFull fuel (k + 1 - d.length) r1 with
      | (none, r2) => (none, r2)
      | (some more, r2) => (some (d ++ more), r2)

/-! ## The request parser (`protocol.go`, lines 62-192) -/

/-- `bconv.Atoi`, the byte-slice form of `strconv.Atoi`: an optional sign, then decimal digits
only, and a value in the range of a 64-bit `int`; `none` is its error. -/
def atoi (l : Bytes) : Option Int :=
  let neg := l.head? = some 45
  let digits := if l.head? = some 43 ∨ l.head? = some 45 then l.tail else l
  if digits.isEmpty || !digits.all (fun d => decide (48 ≤ d ∧ d ≤ 57)) then none
  else
    let v : Nat := digits.foldl (fun acc d => acc * 10 + (d.toNat - 48)) 0
    if neg then (if v ≤ 2 ^ 63 then some (-(Int.ofNat v)) else none)
    else (if v < 2 ^ 63 then some (Int.ofNat v) else none)

/-- The closure `readLength`: the frames it sends, the length it returns (`none` when it
returns an error), and the reader afterwards. The three early returns after a protocol error
leave the named result `err` nil, so they return length 0 and no error. -/
def readLength (pfx : UInt8) (r : Reader) : List Bytes × Option Int × Reader :=
  match r.readByte with
  | (none, r1) => ([], none, r1)
  | (some b, r1) =>
    if b ≠ pfx then (writeProtocolError (bs "invalid length"), some 0, r1)
    else
      match r1.readLine with
      | (none, r2) => ([], none, r2)
      | (some (l, overflowed), r2) =>
        if overflowed then (writeProtocolError (bs "length line too long"), some 0, r2)
        else if l.isEmpty then (writeProtocolError (bs "missing length"), some 0, r2)
        else
          match atoi l with
          | none => (writeProtocolError (bs "length is not a valid integer"), none, r2)
          | some n => ([], some n, r2)

/-- Why `protocolHandler` stops. -/
inductive Stop where
  /-- a read of the connection failed: the handler returns -/
  | closed
  /-- `runCommand` returned an error: the handler returns -/
  | runFailed
  /-- a run-time panic -/
  | panicked
  /-- the fuel of the model ran out (not a behaviour of the program) -/
  | outOfFuel
deriving DecidableEq, Repr

/-- The argument loop of `protocolHandler` with `n` arguments still to read and `args` read so
far: frames sent, the argument vector or the reason to stop, and the reader afterwards.
`make([]byte, length)` panics on a negative length; the result of `c.r.Read(scratch)` is
dropped. -/
def readArgs : Nat → Reader → List Bytes → List Bytes × (List Bytes ⊕ Stop) × Reader
  | 0, r, args => ([], Sum.inl args, r)
  | n + 1, r, args =>
    match readLength 36 r with
    | (fr, none, r1) => (fr, Sum.inr Stop.closed, r1)
    | (fr, some length, r1) =>
      if length < 0 then (fr, Sum.inr Stop.panicked, r1)
      else
        match r1.readFull length.toNat length.toNat with
        | (none, r2) => (fr, Sum.inr Stop.closed, r2)
        | (some data, r2) =>
          match readArgs n (r2.read 2).2 (args ++ [data]) with
          | (fr2, res, r3) => (fr ++ fr2, res, r3)

/-- `bytes.Split(s, sep)` for a separator of one byte. -/
def splitOnByte (sep : UInt8) : Bytes → List Bytes
  | [] => [[]]
  | x :: xs =>
    if x = sep then [] :: splitOnByte sep xs
    else
      match splitOnByte sep xs with
      | [] => [[x]]
      | h :: t => (x :: h) :: t

/-- What the read loop does, in order. -/
inductive Step where
  /-- a frame the parser itself sends (a protocol error of `readLength`) -/
  | send (frame : Bytes)
  /-- a call of `runCommand` with this argument vector, its trace and how it ended -/
  | exec (args : List Bytes) (trace : List Event) (out : Outcome)
deriving DecidableEq, Repr

/-- Total number of bytes a reader can still deliver. -/
def Reader.pending (r : Reader) : Nat := r.buf.length + (r.conn.map List.length).sum

/-- The read loop of `protocolHandler`. `run` is the closure `runCommand`; its state `σ` stands
for all it depends on besides the argument vector (the store, the backing array of `args`).
Each round consumes a byte of the stream or stops, so `pending + 1` rounds of fuel do. -/
def protocolLoop {σ : Type} (run : σ → List Bytes → σ × List Event × Outcome) :
    Nat → σ → Reader → List Step × Stop
  | 0, _, _ => ([], Stop.outOfFuel)
  | fuel + 1, s, r =>
    match r.peek1 with
    | (none, _) => ([], Stop.closed)
    | (some b, r1) =>
      if b ≠ 42 then
        -- `processInline`
        match r1.readBytes 10 (r1.pending + 1) with
        | (none, _) => ([], Stop.closed)
        | (some line, r2) =>
          if line.length < 2 then ([], Stop.panicked)
          else
            match run s (splitOnByte 32 (line.take (line.length - 2))) with
            | (s1, trace, Outcome.ok) =>
              let rest := protocolLoop run fuel s1 r2
              (Step.exec (splitOnByte 32 (line.take (line.length - 2))) trace Outcome.ok :: rest.1,
                rest.2)
            | (_, trace, Outcome.failed msg) =>
              ([Step.exec (splitOnByte 32 (line.take (line.length - 2))) trace
                  (Outcome.failed msg)], Stop.runFailed)
            | (_, trace, Outcome.panicked) =>
              ([Step.exec (splitOnByte 32 (line.take (line.length - 2))) trace Outcome.panicked],
                Stop.panicked)
      else
        match readLength 42 r1 with
        | (fr, none, _) => (fr.map Step.send, Stop.closed)
        | (fr, some argCount, r2) =>
          match readArgs argCount.toNat r2 [] with
          | (fr2, Sum.inr stop, _) => ((fr ++ fr2).map Step.send, stop)
          | (fr2, Sum.inl args, r3) =>
            match run s args with
            | (s1, trace, Outcome.ok) =>
              let rest := protocolLoop run fuel s1 r3
              ((fr ++ fr2).map Step.send ++ Step.exec args trace Outcome.ok :: rest.1, rest.2)
            | (_, trace, Outcome.failed msg) =>
              ((fr ++ fr2).map Step.send ++ [Step.exec args trace (Outcome.failed msg)],
                Stop.runFailed)
            | (_, trace, Outcome.panicked) =>
              ((fr ++ fr2).map Step.send ++ [Step.exec args trace Outcome.panicked],
                Stop.panicked)

/-- `protocolHandler` on a fresh connection that delivers the segments `conn`. -/
def protocolHandler {σ : Type} (run : σ → List Bytes → σ × List Event × Outcome) (s : σ)
    (conn : List Bytes) : List Step × Stop :=
  protocolLoop run ((Reader.mk [] conn).pending + 1) s ⟨[], conn⟩

/-- One argument of a multi-bulk request: `$<len>\r\n<bytes>\r\n`. -/
def encodeArg (a : Bytes) : Bytes := appendInt [36] (Int.ofNat a.length) ++ crlf ++ a ++ crlf

/-- The request `*<N>\r\n` followed by `$<len>\r\n<bytes>\r\n` for each argument. -/
def encodeRequest (args : List Bytes) : Bytes :=
  appendInt [42] (Int.ofNat args.length) ++ crlf ++ (args.map encodeArg).flatten

/-! ## Observations on traces, and a concrete environment -/

/-- Number of `DB.Write` calls in a trace. -/
def commitCount (t : List Event) : Nat := t.count Event.commit

/-- The keys locked, in the order of acquisition. -/
def lockedKeys : List Event → List Bytes
  | [] => []
  | Event.lock k :: t => k :: lockedKeys t
  | _ :: t => lockedKeys t

/-- The locks still held after a trace, starting from the locks `held`. -/
def heldLocks : List Event → List Bytes → List Bytes
  | [], held => held
  | Event.lock k :: t, held => heldLocks t (held ++ [k])
  | Event.unlock k :: t, held => heldLocks t (held.erase k)
  | _ :: t, held => heldLocks t held

/-- The frames of a trace, in order. -/
def framesOf : List Event → List Bytes
  | [] => []
  | Event.send f :: t => f :: framesOf t
  | _ :: t => framesOf t

/-- The canonical lock order of the specification: by stripe index, then by key bytes. -/
def lockOrder (idx : Bytes → Nat) (a b : Bytes) : Prop :=
  idx a < idx b ∨ (idx a = idx b ∧ a ≤ b)

/-- An environment for concrete runs: ASCII lower-casing, the command table in which every
handler from another file answers `+OK`, `ZunionInterKeys` left as the identity, and a commit
that ends as given. -/
def demoEnv (commitErr : Option Bytes) : Env :=
  ⟨asciiLower, commandList (fun _ _ _ => some ReplyOK) (fun a => a), fun _ => commitErr⟩

/-- `runCommand` in an environment, as the read loop calls it, on an argument slice without
spare capacity (the capacity matters only where `getKeys` slices beyond the arguments). -/
def demoRun (env : Env) : Unit → List Bytes → Unit × List Event × Outcome :=
  fun _ args => ((), runCommand env args [])

/-- A step that is a `runCommand` call which returned an error. -/
def Step.isFailed : Step → Bool
  | Step.exec _ _ (Outcome.failed _) => true
  | _ => false


/-! ## The array header of the specification -/

/-- The byte sequence the specification gives for an array of `n` items: `*<n>\r\n`, then the
bytes of each item in order. -/
def specArrayBytes (n : Int) (itemBytes : List Bytes) : Bytes :=
  bs "*" ++ appendInt [] n ++ bs "\r\n" ++ itemBytes.flatten

/-! ## The store, and the handlers `Type`, `Keys` and `Del` (`commands.go`, lines 17-339) -/

/-- `MetaKey`, the first of the type identifiers (`iota` is 0). -/
def MetaKey : UInt8 := 0
/-- `StringKey`. -/
def StringKey : UInt8 := MetaKey + 1
/-- `HashKey`. -/
def HashKey : UInt8 := StringKey + 1
/-- `ListKey`. -/
def ListKey : UInt8 := HashKey + 1
/-- `SetKey`. -/
def SetKey : UInt8 := ListKey + 1
/-- `ZSetKey`. -/
def ZSetKey : UInt8 := SetKey + 1
/-- `ZScoreKey`. -/
def ZScoreKey : UInt8 := ZSetKey + 1
/-- `StringLengthValue`. -/
def StringLengthValue : UInt8 := ZScoreKey + 1
/-- `HashLengthValue`. -/
def HashLengthValue : UInt8 := StringLengthValue + 1
/-- `ListLengthValue`. -/
def ListLengthValue : UInt8 := HashLengthValue + 1
/-- `SetCardValue`. -/
def SetCardValue : UInt8 := ListLengthValue + 1
/-- `ZCardValue`. -/
def ZCardValue : UInt8 := SetCardValue + 1

/-- `InvalidDataError`. -/
def InvalidDataError : Reply := Reply.error (bs "Invalid data")

/-- `InvalidIntError`. -/
def InvalidIntError : Reply := Reply.error (bs "value is not an integer or out of range")

/-- The result of `DB.Get`: a value, the nil slice of a key that is not there, or an error with
its message. -/
inductive GetResult where
  | value (v : Bytes)
  | missing
  | failed (msg : Bytes)
deriving DecidableEq, Repr

/-- The store as `DB.Get` shows it. -/
abbrev DB := Bytes → GetResult

/-- `metaKey`: the key of the meta entry of a user key. -/
def metaKey (k : Bytes) : Bytes := MetaKey :: k

/-- `bufMetaKey`: the same key, built in the buffer `buf` (a slice of length 1 at least). -/
def bufMetaKey (buf : Bytes) (key : Bytes) : Bytes := MetaKey :: ((buf.take 1).drop 1 ++ key)

/-- The handler `Type`; `none` is a panic (`args[0]` without argument, `panic("unknown type")`). -/
def «Type» (db : DB) (args : List Bytes) : Option Reply :=
  match args with
  | [] => none
  | a :: _ =>
    match db (metaKey a) with
    | GetResult.failed msg => some (Reply.error msg)
    | GetResult.missing => some (Reply.str (bs "none"))
    | GetResult.value res =>
      match res with
      | [] => some InvalidDataError
      | t :: _ =>
        if t = StringLengthValue then some (Reply.str (bs "string"))
        else if t = HashLengthValue then some (Reply.str (bs "hash"))
        else if t = ListLengthValue then some (Reply.str (bs "list"))
        else if t = SetCardValue then some (Reply.str (bs "set"))
        else if t = ZCardValue then some (Reply.str (bs "zset"))
        else none

/-- What a handler stages in the write batch. The functions `DelString`, `DelHash`, `DelSet`
and `DelZset` are in other files: a call of one is recorded as such, with the user key. -/
inductive BatchOp where
  /-- `wb.Delete(key)` -/
  | delete (key : Bytes)
  /-- `DelString(key, wb)` -/
  | delString (key : Bytes)
  /-- `DelHash(key, wb)` -/
  | delHash (key : Bytes)
  /-- `DelSet(key, wb)` -/
  | delSet (key : Bytes)
  /-- `DelZset(key, wb)` -/
  | delZset (key : Bytes)
deriving DecidableEq, Repr

/-- The function `del`: the deletion of the payload keys of user key `key` of type `t`; `none`
is `panic("unknown key type")`. -/
def del (key : Bytes) (t : UInt8) : Option (List BatchOp) :=
  if t = StringLengthValue then some [BatchOp.delString key]
  else if t = HashLengthValue then some [BatchOp.delHash key]
  else if t = SetCardValue then some [BatchOp.delSet key]
  else if t = ZCardValue then some [BatchOp.delZset key]
  else none

/-- How `delKey` ends: it returns `deleted` and no error, it returns an error, or it panics. -/
inductive DelKeyResult where
  | done (deleted : Bool) (ops : List BatchOp)
  | failed (err : Reply)
  | panicked
deriving Repr

/-- The function `delKey` on the key `key` of a meta entry. -/
def delKey (db : DB) (key : Bytes) : DelKeyResult :=
  match db key with
  | GetResult.failed msg => DelKeyResult.failed (Reply.error msg)
  | GetResult.missing => DelKeyResult.done false []
  | GetResult.value res =>
    match res with
    | [] => DelKeyResult.failed InvalidDataError
    | t :: _ =>
      match del (key.drop 1) t with
      | none => DelKeyResult.panicked
      | some ops => DelKeyResult.done true (ops ++ [BatchOp.delete key])

/-- The loop of `Del` over the keys still to delete, with the counter `deleted` and the batch
`wb` so far: the reply (`none` for a panic) and the batch. -/
def delLoop (db : DB) : List Bytes → Int → List BatchOp → Option Reply × List BatchOp
  | [], deleted, wb => (some (Reply.int deleted), wb)
  | key :: rest, deleted, wb =>
    match delKey db (bufMetaKey [0] key) with
    | DelKeyResult.panicked => (none, wb)
    | DelKeyResult.failed err => (some err, wb)
    | DelKeyResult.done d ops =>
      delLoop db rest (if d then wrapInt (deleted + 1) else deleted) (wb ++ ops)

/-- The handler `Del`: the reply (`none` for a panic) and what it has staged in the batch.
Before its loop it allocates `make([]byte, 1, len(args[0]))`, which panics without argument
(`args[0]`) and when the first key is empty (a capacity of 0 below the length 1); the
slice made holds one byte, and `bufMetaKey` keeps its first byte only. -/
def Del (db : DB) (args : List Bytes) : Option Reply × List BatchOp :=
  match args with
  | [] => (none, [])
  | a :: _ => if a.length < 1 then (none, []) else delLoop db args 0 []

/-- The loop of `Keys` over the keys the iterator still visits, in its order, with the keys
found so far. `glob` is `filepath.Match`, `none` being its error. -/
def keysLoop (glob : Bytes → Bytes → Option Bool) (pattern : Bytes) :
    List Bytes → List Reply → Reply
  | [], keys => Reply.multi keys
  | k :: rest, keys =>
    if k.length < 2 ∨ k.head? ≠ some MetaKey then Reply.multi keys
    else
      match glob pattern (k.drop 1) with
      | none => Reply.error (bs "invalid pattern for 'keys' command")
      | some matched =>
        keysLoop glob pattern rest
          (if matched then keys ++ [Reply.bulk (some (k.drop 1))] else keys)

/-- The order of the store's keys, that of the engine's bytewise comparator: byte by byte,
and a proper beginning of a key before the key. -/
def bytesLess : Bytes → Bytes → Bool
  | [], [] => false
  | [], _ :: _ => true
  | _ :: _, [] => false
  | a :: as, b :: bs => decide (a < b) || (a == b && bytesLess as bs)

/-- The iterator after `it.Seek(target)` on a store whose keys are `store`, in ascending order:
the keys from the first one that is not below `target`. -/
def seek (store : List Bytes) (target : Bytes) : List Bytes :=
  store.dropWhile (fun k => bytesLess k target)

/-- The handler `Keys` on a store with the keys `store`, in ascending order; `none` is the panic
of `args[0]` without argument. -/
def Keys (glob : Bytes → Bytes → Option Bool) (store : List Bytes) (args : List Bytes) :
    Option Reply :=
  match args with
  | [] => none
  | a :: _ => some (keysLoop glob a (seek store [MetaKey]) [])

/-! ## Range normalisation (`commands.go`, lines 341-362) -/

/-- `bconv.ParseInt(b, 10, 64)`, the byte-slice form of `strconv.ParseInt`: as `atoi`, the
range being that of `int64`. -/
def parseInt64 (b : Bytes) : Option Int := atoi b

/-- How `parseRange` ends: with `start`, `end` and a nil error, with `InvalidIntError`, or with
the panic of `args[0]` or `args[1]` on fewer than two arguments. -/
inductive RangeResult where
  | range (start stop : Int)
  | invalidInt
  | panicked
deriving DecidableEq, Repr

/-- The function `parseRange`. -/
def parseRange (args : List Bytes) (length : Int) : RangeResult :=
  match args with
  | a0 :: a1 :: _ =>
    match parseInt64 a0, parseInt64 a1 with
    | some start, some stop =>
      let start1 := if start < 0 then wrapInt (start + length) else start
      let stop1 := if stop < 0 then wrapInt (stop + length) else stop
      let stop2 := if stop1 > length then wrapInt (length - 1) else stop1
      RangeResult.range start1 stop2
    | _, _ => RangeResult.invalidInt
  | _ => RangeResult.panicked

/-! ## The queue task of a session (`protocol.go`, lines 194-227) -/

/-- The state of `responseQueue` at the top of its loop: the frames still to come on `c.w`
before it is closed, the queue, `c.writeQueueSize`, and the frames handed to `out` so far. -/
structure QueueState where
  incoming : List Bytes
  queue : List Bytes
  writeQueueSize : Int
  out : List Bytes
deriving DecidableEq, Repr

/-- The function `responseQueue` from the top of its loop. Each `select` with both cases ready
takes the case the schedule names for the round, `choose round = true` being the send
`out <- queue[0]`, so the schedules give every interleaving of receiving and forwarding. Every
round takes a frame from `c.w` or hands one to `out`, so twice the frames to come and the
frames queued, and one, are fuel enough; `none` is fuel used up. The result is the frames
handed to `out` when `out` is closed, and the final `c.writeQueueSize`. -/
def responseQueue (choose : Nat → Bool) : Nat → Nat → QueueState → Option (List Bytes × Int)
  | 0, _, _ => none
  | fuel + 1, round, st =>
    match st.queue with
    | [] =>
      match st.incoming with
      | [] => some (st.out, st.writeQueueSize)
      | v :: rest =>
        responseQueue choose fuel round
          ⟨rest, [v], wrapInt (st.writeQueueSize + Int.ofNat v.length), st.out⟩
    | q :: qs =>
      if choose round then
        responseQueue choose fuel (round + 1)
          ⟨st.incoming, qs, wrapInt (st.writeQueueSize - Int.ofNat q.length), st.out ++ [q]⟩
      else
        match st.incoming with
        | [] => some (st.out ++ q :: qs, st.writeQueueSize)
        | v :: rest =>
          responseQueue choose fuel (round + 1)
            ⟨rest, q :: qs ++ [v], wrapInt (st.writeQueueSize + Int.ofNat v.length), st.out⟩

/-- `responseQueue` for a session whose reader sends `frames` on `c.w` and then closes it. -/
def runResponseQueue (choose : Nat → Bool) (frames : List Bytes) : Option (List Bytes × Int) :=
  responseQueue choose (2 * frames.length + 1) 0 ⟨frames, [], 0, []⟩

/-! ## Theorems -/

/-! ### Decimal conversion -/

/-- The digit loop puts its digits in front of the accumulator. -/
theorem natDigitsAux_acc (fuel : Nat) : ∀ (n : Nat) (acc : Bytes),
    natDigitsAux fuel n acc = natDigitsAux fuel n [] ++ acc := by
  induction fuel with
  | zero => intro n acc; rfl
  | succ f ih =>
    intro n acc
    unfold natDigitsAux
    split
    · rfl
    · rw [ih (n / 10) (_ :: acc), ih (n / 10) [_]]
      simp

/-- The digit loop gives one result for every fuel above the number. -/
theorem natDigitsAux_fuel (f1 : Nat) : ∀ (f2 n : Nat), n < f1 → n < f2 →
    natDigitsAux f1 n [] = natDigitsAux f2 n [] := by
  induction f1 with
  | zero => intro f2 n h; omega
  | succ f ih =>
    intro f2 n h1 h2
    cases f2 with
    | zero => omega
    | succ g =>
      by_cases h10 : n < 10
      · simp [natDigitsAux, h10]
      · have hdiv : n / 10 < n := Nat.div_lt_self (by omega) (by omega)
        simp only [natDigitsAux, h10, if_false]
        rw [natDigitsAux_acc f, natDigitsAux_acc g, ih g (n / 10) (by omega) (by omega)]

/-- A number below ten has one digit. -/
theorem natDigits_small (n : Nat) (h : n < 10) : natDigits n = [UInt8.ofNat (48 + n)] := by
  simp [natDigits, natDigitsAux, h]

/-- The digits of a number of ten or more: those of its tenth, then its last digit. -/
theorem natDigits_step (n : Nat) (h : ¬ n < 10) :
    natDigits n = natDigits (n / 10) ++ [UInt8.ofNat (48 + n % 10)] := by
  have hdiv : n / 10 < n := Nat.div_lt_self (by omega) (by omega)
  have e : natDigitsAux (n + 1) n [] =
      natDigitsAux n (n / 10) [UInt8.ofNat (48 + n % 10)] := by
    conv_lhs => unfold natDigitsAux
    simp [h]
  unfold natDigits
  rw [e, natDigitsAux_acc n, natDigitsAux_fuel n (n / 10 + 1) (n / 10) hdiv (by omega)]

/-- A byte that is an ASCII decimal digit. -/
theorem digit_byte (k : Nat) (h : k < 10) :
    (UInt8.ofNat (48 + k)).toNat = 48 + k := by
  interval_cases k <;> rfl

/-- Every byte of a decimal conversion is an ASCII digit. -/
theorem natDigits_digits (n : Nat) : ∀ d ∈ natDigits n, 48 ≤ d.toNat ∧ d.toNat ≤ 57 := by
  induction n using Nat.strong_induction_on with
  | _ n ih =>
    intro d hd
    by_cases h10 : n < 10
    · rw [natDigits_small n h10] at hd
      simp only [List.mem_singleton] at hd
      subst hd
      rw [digit_byte n h10]
      omega
    · rw [natDigits_step n h10] at hd
      simp only [List.mem_append, List.mem_singleton] at hd
      rcases hd with hd | hd
      · exact ih (n / 10) (Nat.div_lt_self (by omega) (by omega)) d hd
      · subst hd
        rw [digit_byte (n % 10) (Nat.mod_lt _ (by omega))]
        omega

/-- A decimal conversion has a digit at least. -/
theorem natDigits_ne_nil (n : Nat) : natDigits n ≠ [] := by
  by_cases h10 : n < 10
  · rw [natDigits_small n h10]; simp
  · rw [natDigits_step n h10]; simp

/-- Reading the digits back, the way `atoi` does, gives the number. -/
theorem natDigits_value (n : Nat) :
    (natDigits n).foldl (fun acc d => acc * 10 + (d.toNat - 48)) 0 = n := by
  induction n using Nat.strong_induction_on with
  | _ n ih =>
    by_cases h10 : n < 10
    · rw [natDigits_small n h10]
      simp only [List.foldl_cons, List.foldl_nil]
      rw [digit_byte n h10]
      omega
    · rw [natDigits_step n h10, List.foldl_append]
      simp only [List.foldl_cons, List.foldl_nil]
      rw [ih (n / 10) (Nat.div_lt_self (by omega) (by omega)),
        digit_byte (n % 10) (Nat.mod_lt _ (by omega))]
      omega


/-- The digit test of `atoi` in terms of the byte's value. -/
theorem digit_byte_le (d : UInt8) : (48 ≤ d ∧ d ≤ 57) ↔ (48 ≤ d.toNat ∧ d.toNat ≤ 57) := by
  simp [UInt8.le_def, UInt8.toNat, BitVec.le_def]

/-- `atoi` reads the decimal conversion of a number in the range of `int` back to it. -/
theorem atoi_natDigits (n : Nat) (h : n < 2 ^ 63) : atoi (natDigits n) = some (Int.ofNat n) := by
  have hd := natDigits_digits n
  have hne := natDigits_ne_nil n
  have hval := natDigits_value n
  generalize natDigits n = l at hd hne hval
  cases l with
  | nil => exact absurd rfl hne
  | cons x t =>
    have hx := hd x (List.mem_cons_self _ _)
    have h43 : x ≠ 43 := by
      intro e; subst e
      have : (43 : UInt8).toNat = 43 := rfl
      omega
    have h45 : x ≠ 45 := by
      intro e; subst e
      have : (45 : UInt8).toNat = 45 := rfl
      omega
    have hall : (x :: t).all (fun d => decide (48 ≤ d ∧ d ≤ 57)) = true := by
      rw [List.all_eq_true]
      intro d hd'
      simp only [decide_eq_true_eq]
      exact (digit_byte_le d).mpr (hd d hd')
    unfold atoi
    simp only [List.head?_cons, Option.some.injEq, h43, h45, or_self, if_false, hall,
      List.isEmpty_cons, Bool.not_true, Bool.or_self, Bool.false_eq_true, hval, h, if_true]


/-! ### The reader: bytes still to come, and the fuel of the loops -/

/-- A read of the connection moves bytes, it neither adds nor drops one. -/
theorem connRead_pending (n : Nat) (conn : List Bytes) (d : Bytes) (conn1 : List Bytes)
    (h : connRead n conn = some (d, conn1)) :
    d.length + (conn1.map List.length).sum = (conn.map List.length).sum := by
  induction conn with
  | nil => simp [connRead] at h
  | cons seg rest ih =>
    unfold connRead at h
    split at h
    · rename_i he
      have : seg = [] := by simpa using he
      subst this
      simpa using ih h
    · simp only [Option.some.injEq, Prod.mk.injEq] at h
      obtain ⟨rfl, rfl⟩ := h
      split
      · rename_i hle
        simp [List.take_of_length_le hle]
      · simp only [List.map_cons, List.sum_cons, List.length_take, List.length_drop]
        omega

/-- A read of the connection into free room returns a byte at least. -/
theorem connRead_nonempty (n : Nat) (hn : 0 < n) (conn : List Bytes) (d : Bytes)
    (conn1 : List Bytes) (h : connRead n conn = some (d, conn1)) : d ≠ [] := by
  induction conn with
  | nil => simp [connRead] at h
  | cons seg rest ih =>
    unfold connRead at h
    split at h
    · exact ih h
    · rename_i he
      simp only [Option.some.injEq, Prod.mk.injEq] at h
      obtain ⟨rfl, _⟩ := h
      cases seg with
      | nil => simp at he
      | cons x t =>
        cases n with
        | zero => omega
        | succ k => simp

/-- `fill` keeps the number of bytes still to come. -/
theorem fill_pending (r r1 : Reader) (h : r.fill = some r1) : r1.pending = r.pending := by
  unfold Reader.fill at h
  split at h
  · cases h
  · rename_i d conn hc
    cases h
    have := connRead_pending _ _ _ _ hc
    simp only [Reader.pending, List.length_append]
    omega

/-- `fill` on a buffer that is not full adds a byte at least. -/
theorem fill_grows (r r1 : Reader) (hlt : r.buf.length < bufSize) (h : r.fill = some r1) :
    r.buf.length < r1.buf.length := by
  unfold Reader.fill at h
  split at h
  · cases h
  · rename_i d conn hc
    cases h
    have := connRead_nonempty _ (by omega) _ _ _ hc
    have : 0 < d.length := List.length_pos.mpr this
    simp only [List.length_append]
    omega

/-- Nothing is to come from a closed reader. -/
theorem closed_pending : Reader.closed.pending = 0 := rfl

/-- `Peek(1)` consumes nothing. -/
theorem peek1_pending (r r1 : Reader) (b : UInt8) (h : r.peek1 = (some b, r1)) :
    r1.pending = r.pending := by
  unfold Reader.peek1 at h
  split at h
  · cases h; rfl
  · split at h
    · cases h
    · rename_i r2 hf
      simp only [Prod.mk.injEq] at h
      obtain ⟨_, rfl⟩ := h
      exact fill_pending _ _ hf

/-- `ReadByte` consumes one byte. -/
theorem readByte_pending (r r1 : Reader) (b : UInt8) (h : r.readByte = (some b, r1)) :
    r1.pending + 1 = r.pending := by
  unfold Reader.readByte at h
  split at h
  · rename_i x rest hb
    cases h
    simp [Reader.pending, hb]
    omega
  · split at h
    · cases h
    · rename_i r2 hf
      simp only [Prod.mk.injEq] at h
      obtain ⟨hh, rfl⟩ := h
      have := fill_pending _ _ hf
      cases hb : r2.buf with
      | nil => simp [hb] at hh
      | cons x t =>
        simp only [Reader.pending, hb, List.tail_cons, List.length_cons] at this ⊢
        omega


/-- `splitAtDelim` cuts the bytes in two, the first part not empty. -/
theorem splitAtDelim_append (d : UInt8) (l a b : Bytes) (h : splitAtDelim d l = some (a, b)) :
    l = a ++ b ∧ a ≠ [] := by
  induction l generalizing a with
  | nil => simp [splitAtDelim] at h
  | cons x t ih =>
    unfold splitAtDelim at h
    split at h
    · simp only [Option.some.injEq, Prod.mk.injEq] at h
      obtain ⟨rfl, rfl⟩ := h
      simp
    · split at h
      · cases h
      · rename_i a1 b1 hs
        simp only [Option.some.injEq, Prod.mk.injEq] at h
        obtain ⟨rfl, rfl⟩ := h
        have := (ih a1 hs).1
        simp [this]

/-- `ReadSlice` consumes the bytes it returns; a found line is not empty and a full buffer is handed
out whole. -/
theorem readSlice_pending (d : UInt8) (fuel : Nat) : ∀ (r r1 : Reader) (line : Bytes)
    (e : SliceEnd), Reader.readSlice d fuel r = (line, e, r1) →
    r1.pending + line.length ≤ r.pending ∧ (e = SliceEnd.found → line ≠ []) ∧
      (e = SliceEnd.bufferFull → r1.buf = []) := by
  induction fuel with
  | zero =>
    intro r r1 line e h
    simp only [Reader.readSlice, Prod.mk.injEq] at h
    obtain ⟨rfl, rfl, rfl⟩ := h
    simp
  | succ n ih =>
    intro r r1 line e h
    unfold Reader.readSlice at h
    split at h
    · rename_i a b hs
      simp only [Prod.mk.injEq] at h
      obtain ⟨rfl, rfl, rfl⟩ := h
      obtain ⟨h1, h2⟩ := splitAtDelim_append _ _ _ _ hs
      refine ⟨?_, fun _ => h2, fun hh => by cases hh⟩
      simp only [Reader.pending, h1, List.length_append]
      omega
    · split at h
      · simp only [Prod.mk.injEq] at h
        obtain ⟨rfl, rfl, rfl⟩ := h
        refine ⟨?_, (fun hh => by cases hh), fun _ => rfl⟩
        simp only [Reader.pending, List.length_nil]
        omega
      · split at h
        · simp only [Prod.mk.injEq] at h
          obtain ⟨rfl, rfl, rfl⟩ := h
          refine ⟨?_, (fun hh => by cases hh), (fun hh => by cases hh)⟩
          simp only [Reader.pending, closed_pending]
          simp [Reader.closed]
        · rename_i r2 hf
          have := ih r2 r1 line e h
          rw [fill_pending _ _ hf] at this
          exact this

/-- `ReadLine` never adds to the bytes still to come. -/
theorem readLine_pending (r r1 : Reader) (res : Option (Bytes × Bool))
    (h : r.readLine = (res, r1)) : r1.pending ≤ r.pending := by
  unfold Reader.readLine at h
  split at h
  · rename_i line r2 hs
    obtain ⟨h1, _, h3⟩ := readSlice_pending _ _ _ _ _ _ hs
    have hb := h3 rfl
    split at h
    · rename_i hl
      simp only [Prod.mk.injEq] at h
      obtain ⟨_, rfl⟩ := h
      have : line ≠ [] := by
        intro e; subst e; simp at hl
      have : 0 < line.length := List.length_pos.mpr this
      simp only [Reader.pending, hb, List.length_cons, List.length_nil] at h1 ⊢
      omega
    · simp only [Prod.mk.injEq] at h
      obtain ⟨_, rfl⟩ := h
      omega
  · rename_i line r2 hs
    obtain ⟨h1, _, _⟩ := readSlice_pending _ _ _ _ _ _ hs
    split at h <;>
    · simp only [Prod.mk.injEq] at h
      obtain ⟨_, rfl⟩ := h
      omega
  · rename_i line r2 hs
    obtain ⟨h1, _, _⟩ := readSlice_pending _ _ _ _ _ _ hs
    simp only at h
    split at h <;>
    · simp only [Prod.mk.injEq] at h
      obtain ⟨_, rfl⟩ := h
      omega

/-- A successful `ReadBytes` consumes a byte at least. -/
theorem readBytes_pending (d : UInt8) (fuel : Nat) : ∀ (r r1 : Reader) (line : Bytes),
    Reader.readBytes d fuel r = (some line, r1) → r1.pending < r.pending := by
  induction fuel with
  | zero =>
    intro r r1 line h
    simp [Reader.readBytes] at h
  | succ n ih =>
    intro r r1 line h
    unfold Reader.readBytes at h
    split at h
    · rename_i frag r2 hs
      simp only [Prod.mk.injEq, Option.some.injEq] at h
      obtain ⟨rfl, rfl⟩ := h
      obtain ⟨h1, h2, _⟩ := readSlice_pending _ _ _ _ _ _ hs
      have : 0 < frag.length := List.length_pos.mpr (h2 rfl)
      omega
    · simp at h
    · rename_i frag r2 hs
      obtain ⟨h1, _, _⟩ := readSlice_pending _ _ _ _ _ _ hs
      split at h
      · simp at h
      · rename_i more r3 hr
        simp only [Prod.mk.injEq, Option.some.injEq] at h
        obtain ⟨_, rfl⟩ := h
        have := ih _ _ _ hr
        omega

/-- `Read` never adds to the bytes still to come. -/
theorem read_pending (k : Nat) (r r1 : Reader) (res : Option Bytes)
    (h : r.read k = (res, r1)) : r1.pending ≤ r.pending := by
  unfold Reader.read at h
  split at h
  · rename_i hb
    split at h
    · split at h
      · simp only [Prod.mk.injEq] at h
        obtain ⟨_, rfl⟩ := h
        simp [Reader.pending, Reader.closed]
      · rename_i d conn hc
        simp only [Prod.mk.injEq] at h
        obtain ⟨_, rfl⟩ := h
        have := connRead_pending _ _ _ _ hc
        simp only [Reader.pending, List.length_nil, hb]
        omega
    · split at h
      · simp only [Prod.mk.injEq] at h
        obtain ⟨_, rfl⟩ := h
        simp [Reader.pending, Reader.closed]
      · rename_i r2 hf
        simp only [Prod.mk.injEq] at h
        obtain ⟨_, rfl⟩ := h
        have := fill_pending _ _ hf
        simp only [Reader.pending, List.length_drop] at this ⊢
        omega
  · simp only [Prod.mk.injEq] at h
    obtain ⟨_, rfl⟩ := h
    simp only [Reader.pending, List.length_drop]
    omega

/-- `io.ReadFull` never adds to the bytes still to come. -/
theorem readFull_pending (fuel : Nat) : ∀ (k : Nat) (r r1 : Reader) (res : Option Bytes),
    Reader.readFull fuel k r = (res, r1) → r1.pending ≤ r.pending := by
  induction fuel with
  | zero =>
    intro k r r1 res h
    cases k <;>
    · simp only [Reader.readFull, Prod.mk.injEq] at h
      obtain ⟨_, rfl⟩ := h
      exact Nat.le_refl _
  | succ n ih =>
    intro k r r1 res h
    cases k with
    | zero =>
      simp only [Reader.readFull, Prod.mk.injEq] at h
      obtain ⟨_, rfl⟩ := h
      exact Nat.le_refl _
    | succ k =>
      unfold Reader.readFull at h
      split at h
      · rename_i r2 hr
        simp only [Prod.mk.injEq] at h
        obtain ⟨_, rfl⟩ := h
        exact read_pending _ _ _ _ hr
      · rename_i d r2 hr
        have h1 := read_pending _ _ _ _ hr
        split at h
        · rename_i r3 hr3
          simp only [Prod.mk.injEq] at h
          obtain ⟨_, rfl⟩ := h
          have := ih _ _ _ _ hr3
          omega
        · rename_i more r3 hr3
          simp only [Prod.mk.injEq] at h
          obtain ⟨_, rfl⟩ := h
          have := ih _ _ _ _ hr3
          omega


/-- A `readLength` that returns no error has consumed a byte at least. -/
theorem readLength_pending (p : UInt8) (r r1 : Reader) (fr : List Bytes) (n : Int)
    (h : readLength p r = (fr, some n, r1)) : r1.pending < r.pending := by
  unfold readLength at h
  split at h
  · simp at h
  · rename_i b r2 hb
    have h1 := readByte_pending _ _ _ hb
    split at h
    · simp only [Prod.mk.injEq] at h
      obtain ⟨_, _, rfl⟩ := h
      omega
    · split at h
      · simp at h
      · rename_i l ov r3 hl
        have h2 := readLine_pending _ _ _ hl
        split at h
        · simp only [Prod.mk.injEq] at h
          obtain ⟨_, _, rfl⟩ := h
          omega
        · split at h
          · simp only [Prod.mk.injEq] at h
            obtain ⟨_, _, rfl⟩ := h
            omega
          · split at h
            · simp at h
            · simp only [Prod.mk.injEq] at h
              obtain ⟨_, _, rfl⟩ := h
              omega

/-- `readLength` never adds to the bytes still to come. -/
theorem readLength_pending_le (p : UInt8) (r r1 : Reader) (fr : List Bytes) (n : Option Int)
    (h : readLength p r = (fr, n, r1)) : r1.pending ≤ r.pending := by
  cases n with
  | some n => exact Nat.le_of_lt (readLength_pending p r r1 fr n h)
  | none =>
    unfold readLength at h
    split at h
    · rename_i r2 hb
      simp only [Prod.mk.injEq] at h
      obtain ⟨_, _, rfl⟩ := h
      unfold Reader.readByte at hb
      split at hb
      · cases hb
      · split at hb
        · cases hb
          simp [Reader.pending, Reader.closed]
        · rename_i r3 hf
          simp only [Prod.mk.injEq] at hb
          obtain ⟨_, rfl⟩ := hb
          have := fill_pending _ _ hf
          simp only [Reader.pending, List.length_tail] at this ⊢
          omega
    · rename_i b r2 hb
      have h1 := readByte_pending _ _ _ hb
      split at h
      · simp at h
      · split at h
        · rename_i r3 hl
          have h2 := readLine_pending _ _ _ hl
          simp only [Prod.mk.injEq] at h
          obtain ⟨_, _, rfl⟩ := h
          omega
        · rename_i l ov r3 hl
          have h2 := readLine_pending _ _ _ hl
          split at h
          · simp at h
          · split at h
            · simp at h
            · split at h
              · simp only [Prod.mk.injEq] at h
                obtain ⟨_, _, rfl⟩ := h
                omega
              · simp at h

/-- The argument loop never adds to the bytes still to come, and stops only for a failed read or a
panic. -/
theorem readArgs_pending (n : Nat) : ∀ (r r1 : Reader) (acc : List Bytes) (fr : List Bytes)
    (res : List Bytes ⊕ Stop), readArgs n r acc = (fr, res, r1) →
    r1.pending ≤ r.pending ∧ res ≠ Sum.inr Stop.outOfFuel ∧ res ≠ Sum.inr Stop.runFailed := by
  induction n with
  | zero =>
    intro r r1 acc fr res h
    simp only [readArgs, Prod.mk.injEq] at h
    obtain ⟨_, rfl, rfl⟩ := h
    simp
  | succ k ih =>
    intro r r1 acc fr res h
    unfold readArgs at h
    split at h
    · rename_i fr1 r2 hl
      simp only [Prod.mk.injEq] at h
      obtain ⟨_, rfl, rfl⟩ := h
      exact ⟨readLength_pending_le _ _ _ _ _ hl, by simp, by simp⟩
    · rename_i fr1 len r2 hl
      have h1 := readLength_pending _ _ _ _ _ hl
      split at h
      · simp only [Prod.mk.injEq] at h
        obtain ⟨_, rfl, rfl⟩ := h
        exact ⟨by omega, by simp, by simp⟩
      · split at h
        · rename_i r3 hf
          have h2 := readFull_pending _ _ _ _ _ hf
          simp only [Prod.mk.injEq] at h
          obtain ⟨_, rfl, rfl⟩ := h
          exact ⟨by omega, by simp, by simp⟩
        · rename_i data r3 hf
          have h2 := readFull_pending _ _ _ _ _ hf
          split at h
          · rename_i fr2 res2 r4 hr
            simp only [Prod.mk.injEq] at h
            obtain ⟨_, rfl, rfl⟩ := h
            have h3 := read_pending 2 r3 (r3.read 2).2 (r3.read 2).1 rfl
            obtain ⟨h4, h5, h6⟩ := ih _ _ _ _ _ hr
            exact ⟨by omega, h5, h6⟩

/-- The fuel of the read loop is never used up: on every finite stream the loop stops because
a read fails, `runCommand` returns an error, or a panic. -/
theorem protocolLoop_fuel {σ : Type} (run : σ → List Bytes → σ × List Event × Outcome)
    (fuel : Nat) : ∀ (s : σ) (r : Reader) (p : List Step × Stop), r.pending < fuel →
    p = protocolLoop run fuel s r → p.2 ≠ Stop.outOfFuel := by
  induction fuel with
  | zero => intro s r p h; omega
  | succ n ih =>
    intro s r p hlt hp
    unfold protocolLoop at hp
    split at hp
    · subst hp; simp
    · rename_i b r1 hpk
      have h0 := peek1_pending _ _ _ hpk
      split at hp
      · split at hp
        · subst hp; simp
        · rename_i line r2 hrb
          have h1 := readBytes_pending _ _ _ _ _ hrb
          split at hp
          · subst hp; simp
          · split at hp
            · rename_i s1 trace hrun
              subst hp
              have hh := ih s1 r2 (protocolLoop run n s1 r2) (by omega) rfl
              exact hh
            · subst hp; simp
            · subst hp; simp
      · split at hp
        · subst hp; simp
        · rename_i fr argc r2 hl
          have h1 := readLength_pending _ _ _ _ _ hl
          split at hp
          · rename_i fr2 stop r3 hra
            obtain ⟨_, h3, _⟩ := readArgs_pending _ _ _ _ _ _ hra
            subst hp
            intro e
            simp only at e
            subst e
            exact h3 rfl
          · rename_i fr2 args r3 hra
            obtain ⟨h2, _, _⟩ := readArgs_pending _ _ _ _ _ _ hra
            split at hp
            · rename_i s1 trace hrun
              subst hp
              have hh := ih s1 r3 (protocolLoop run n s1 r3) (by omega) rfl
              exact hh
            · subst hp; simp
            · subst hp; simp


/-- On every finite stream, however it is cut into segments, `protocolHandler` stops because a read
fails, because `runCommand` returns an error, or by a panic: the fuel of the read loop is never
used up. -/
theorem protocolHandler_stops {σ : Type} (run : σ → List Bytes → σ × List Event × Outcome)
    (s : σ) (conn : List Bytes) : (protocolHandler run s conn).2 ≠ Stop.outOfFuel :=
  protocolLoop_fuel run _ s _ _ (Nat.lt_succ_self _) rfl

/-- `ReadSlice` gives one result for every fuel above the free room of the buffer. -/
theorem readSlice_fuel (d : UInt8) (f1 : Nat) : ∀ (f2 : Nat) (r : Reader),
    bufSize - r.buf.length < f1 → bufSize - r.buf.length < f2 →
    Reader.readSlice d f1 r = Reader.readSlice d f2 r := by
  induction f1 with
  | zero => intro f2 r h; omega
  | succ a ih =>
    intro f2 r h1 h2
    cases f2 with
    | zero => omega
    | succ b =>
      unfold Reader.readSlice
      split
      · rfl
      · split
        · rfl
        · rename_i hfull
          cases hf : r.fill with
          | none => rfl
          | some r1 =>
            have hg := fill_grows r r1 (by omega) hf
            exact ih b r1 (by omega) (by omega)

/-- `ErrBufferFull` comes with a full buffer of bytes. -/
theorem readSlice_full_length (d : UInt8) (fuel : Nat) : ∀ (r r1 : Reader) (line : Bytes),
    Reader.readSlice d fuel r = (line, SliceEnd.bufferFull, r1) → bufSize ≤ line.length := by
  induction fuel with
  | zero => intro r r1 line h; simp [Reader.readSlice] at h
  | succ n ih =>
    intro r r1 line h
    unfold Reader.readSlice at h
    split at h
    · simp at h
    · split at h
      · rename_i hfull
        simp only [Prod.mk.injEq] at h
        obtain ⟨rfl, _, _⟩ := h
        exact hfull
      · split at h
        · simp at h
        · exact ih _ _ _ h

/-- `ReadBytes` gives one result for every fuel above the number of bytes still to come. -/
theorem readBytes_fuel (d : UInt8) (f1 : Nat) : ∀ (f2 : Nat) (r : Reader),
    r.pending < f1 → r.pending < f2 →
    Reader.readBytes d f1 r = Reader.readBytes d f2 r := by
  induction f1 with
  | zero => intro f2 r h; omega
  | succ a ih =>
    intro f2 r h1 h2
    cases f2 with
    | zero => omega
    | succ b =>
      unfold Reader.readBytes
      split
      · rfl
      · rfl
      · rename_i frag r1 hs
        have hp := (readSlice_pending _ _ _ _ _ _ hs).1
        have hl := readSlice_full_length _ _ _ _ _ hs
        have hb : 0 < bufSize := by decide
        rw [ih b r1 (by omega) (by omega)]

/-- A successful `Read` into a non-empty slice returns a byte at least. -/
theorem read_nonempty (k : Nat) (r r1 : Reader) (data : Bytes)
    (h : r.read (k + 1) = (some data, r1)) : data ≠ [] := by
  unfold Reader.read at h
  split at h
  · rename_i hb
    split at h
    · split at h
      · simp at h
      · rename_i d conn hc
        simp only [Prod.mk.injEq, Option.some.injEq] at h
        obtain ⟨rfl, _⟩ := h
        exact connRead_nonempty _ (by omega) _ _ _ hc
    · split at h
      · simp at h
      · rename_i r2 hf
        simp only [Prod.mk.injEq, Option.some.injEq] at h
        obtain ⟨rfl, _⟩ := h
        have hg := fill_grows r r2 (by rw [hb]; decide) hf
        intro e
        have := congrArg List.length e
        simp only [List.length_take, List.length_nil] at this
        omega
  · rename_i x t hb
    simp only [Prod.mk.injEq, Option.some.injEq] at h
    obtain ⟨rfl, _⟩ := h
    rw [hb]
    simp

/-- `io.ReadFull` gives one result for every fuel of at least the number of bytes to read. -/
theorem readFull_fuel (f1 : Nat) : ∀ (f2 k : Nat) (r : Reader), k ≤ f1 → k ≤ f2 →
    Reader.readFull f1 k r = Reader.readFull f2 k r := by
  induction f1 with
  | zero =>
    intro f2 k r h1 h2
    have : k = 0 := by omega
    subst this
    cases f2 <;> rfl
  | succ a ih =>
    intro f2 k r h1 h2
    cases k with
    | zero => cases f2 <;> rfl
    | succ k =>
      cases f2 with
      | zero => omega
      | succ b =>
        unfold Reader.readFull
        split
        · rfl
        · rename_i data r1 hr
          have hne := read_nonempty _ _ _ _ hr
          have : 0 < data.length := List.length_pos.mpr hne
          rw [ih b (k + 1 - data.length) r1 (by omega) (by omega)]


/-- Adding a key step of two or more to an index either wraps to a negative number or advances by
two at least. -/
theorem wrapInt_step (i step : Int) (h0 : 0 ≤ i) (h1 : i < 2 ^ 63) (hs : 2 ≤ step)
    (hs1 : step < 2 ^ 63) : wrapInt (i + step) < 0 ∨ i + 2 ≤ wrapInt (i + step) := by
  unfold wrapInt
  omega

/-- On a negative index the loop of `getKeys` ends in one round. -/
theorem keyLoop_negative (c : cmdDesc) (args : List Bytes) (i : Int) (keys : List Bytes)
    (hi : i < 0) (f1 f2 : Nat) :
    keyLoop c args (f1 + 1) i keys = keyLoop c args (f2 + 1) i keys := by
  unfold keyLoop
  simp [hi]

/-- The loop of `getKeys` gives one result for every fuel above the number of arguments from
`i` on: `len(args) + 1` rounds of fuel are never used up. -/
theorem keyLoop_fuel (c : cmdDesc) (args : List Bytes) (hs : 2 ≤ c.keyStep)
    (hs1 : c.keyStep < 2 ^ 63) (hlen : args.length < 2 ^ 63) (f1 : Nat) :
    ∀ (f2 : Nat) (i : Int) (keys : List Bytes), 0 ≤ i →
    (Int.ofNat args.length - i).toNat < f1 → (Int.ofNat args.length - i).toNat < f2 →
    keyLoop c args f1 i keys = keyLoop c args f2 i keys := by
  induction f1 with
  | zero => intro f2 i keys _ h; omega
  | succ a ih =>
    intro f2 i keys h0 h1 h2
    cases f2 with
    | zero => omega
    | succ b =>
      unfold keyLoop
      split
      · rename_i hc
        split
        · rfl
        · have hi : i < 2 ^ 63 := by
            have : (Int.ofNat args.length) < 2 ^ 63 := by
              simp only [Int.ofNat_eq_coe]; omega
            omega
          have hw := wrapInt_step i c.keyStep h0 hi hs hs1
          simp only [Int.ofNat_eq_coe] at h1 h2 hc
          rcases hw with hw | hw
          · obtain ⟨a', rfl⟩ : ∃ a', a = a' + 1 := ⟨a - 1, by omega⟩
            obtain ⟨b', rfl⟩ : ∃ b', b = b' + 1 := ⟨b - 1, by omega⟩
            exact keyLoop_negative c args _ _ hw a' b'
          · exact ih b _ _ (by omega) (by simp only [Int.ofNat_eq_coe]; omega)
              (by simp only [Int.ofNat_eq_coe]; omega)
      · rfl


/-! ### The parser on buffered input -/

/-- `AppendInt` of a non-negative number appends its digits. -/
theorem appendInt_ofNat (dst : Bytes) (n : Nat) :
    appendInt dst (Int.ofNat n) = dst ++ natDigits n := by
  unfold appendInt
  have : ¬ (Int.ofNat n < 0) := by
    simp only [Int.ofNat_eq_coe]
    omega
  simp [this]

/-- The first line feed after bytes that hold none. -/
theorem splitAtDelim_line (ds rest : Bytes) (h : ∀ d ∈ ds, d ≠ 10) :
    splitAtDelim 10 (ds ++ 10 :: rest) = some (ds ++ [10], rest) := by
  induction ds with
  | nil => simp [splitAtDelim]
  | cons x t ih =>
    have hx : x ≠ 10 := h x (List.mem_cons_self _ _)
    have ht := ih (fun d hd => h d (List.mem_cons_of_mem _ hd))
    simp [splitAtDelim, hx, ht]

/-- `ReadLine` on a buffer that starts with a line ended by `\r\n`. -/
theorem readLine_buffered (ds rest : Bytes) (conn : List Bytes) (h : ∀ d ∈ ds, d ≠ 10) :
    Reader.readLine ⟨ds ++ 13 :: 10 :: rest, conn⟩ = (some (ds, false), ⟨rest, conn⟩) := by
  have hs : splitAtDelim 10 (ds ++ 13 :: 10 :: rest) = some (ds ++ [13, 10], rest) := by
    have := splitAtDelim_line (ds ++ [13]) rest (by
      intro d hd
      simp only [List.mem_append, List.mem_singleton] at hd
      rcases hd with hd | hd
      · exact h d hd
      · subst hd; decide)
    simpa using this
  have hr : Reader.readSlice 10 (bufSize + 1) ⟨ds ++ 13 :: 10 :: rest, conn⟩ =
      (ds ++ [13, 10], SliceEnd.found, ⟨rest, conn⟩) := by
    simp [Reader.readSlice, hs]
  unfold Reader.readLine
  rw [hr]
  have h1 : (ds ++ [13, 10]).dropLast = ds ++ [13] := by
    rw [show ds ++ [13, 10] = (ds ++ [13]) ++ [10] by simp, List.dropLast_concat]
  simp [h1]

/-- A decimal conversion holds no line feed. -/
theorem natDigits_no_newline (n : Nat) : ∀ d ∈ natDigits n, d ≠ 10 := by
  intro d hd e
  subst e
  have := natDigits_digits n 10 hd
  have h10 : (10 : UInt8).toNat = 10 := rfl
  omega

/-- `readLength` on a buffer that starts with a length line. -/
theorem readLength_buffered (p : UInt8) (n : Nat) (hn : n < 2 ^ 63) (rest : Bytes)
    (conn : List Bytes) :
    readLength p ⟨appendInt [p] (Int.ofNat n) ++ crlf ++ rest, conn⟩ =
      ([], some (Int.ofNat n), ⟨rest, conn⟩) := by
  rw [appendInt_ofNat]
  have hb : ([p] ++ natDigits n ++ crlf ++ rest) = p :: (natDigits n ++ 13 :: 10 :: rest) := by
    simp [crlf]
  rw [hb]
  have hne : (natDigits n).isEmpty = false := by
    cases h : natDigits n with
    | nil => exact absurd h (natDigits_ne_nil n)
    | cons x t => rfl
  simp [readLength, Reader.readByte, readLine_buffered _ _ _ (natDigits_no_newline n),
    atoi_natDigits n hn, hne]

/-- `io.ReadFull` of bytes that are in the buffer. -/
theorem readFull_buffered (a rest : Bytes) (conn : List Bytes) :
    Reader.readFull a.length a.length ⟨a ++ rest, conn⟩ = (some a, ⟨rest, conn⟩) := by
  cases a with
  | nil => simp [Reader.readFull]
  | cons x t =>
    simp [Reader.readFull, Reader.read]

/-- The argument loop on a buffer that starts with the encoded arguments. -/
theorem readArgs_buffered (args : List Bytes) : ∀ (acc : List Bytes) (tail : Bytes)
    (conn : List Bytes), (∀ a ∈ args, a.length < 2 ^ 63) →
    readArgs args.length ⟨(args.map encodeArg).flatten ++ tail, conn⟩ acc =
      ([], Sum.inl (acc ++ args), ⟨tail, conn⟩) := by
  induction args with
  | nil => intro acc tail conn _; simp [readArgs]
  | cons a t ih =>
    intro acc tail conn h
    have ha := h a (List.mem_cons_self _ _)
    have hb : ((a :: t).map encodeArg).flatten ++ tail =
        appendInt [36] (Int.ofNat a.length) ++ crlf ++
          (a ++ (13 :: 10 :: ((t.map encodeArg).flatten ++ tail))) := by
      simp [encodeArg, crlf]
    rw [hb]
    simp only [List.length_cons, readArgs, readLength_buffered 36 a.length ha]
    have hneg : ¬ (Int.ofNat a.length < 0) := by
      simp only [Int.ofNat_eq_coe]
      omega
    have hnat : (Int.ofNat a.length).toNat = a.length := rfl
    simp only [hneg, if_false, hnat, readFull_buffered]
    have hread : (Reader.read 2 ⟨13 :: 10 :: ((t.map encodeArg).flatten ++ tail), conn⟩).2 =
        ⟨(t.map encodeArg).flatten ++ tail, conn⟩ := rfl
    rw [hread, ih (acc ++ [a]) tail conn (fun b hb => h b (List.mem_cons_of_mem _ hb))]
    simp


/-- One round of the read loop on a reader whose buffer starts with a whole request. -/
theorem request_step {σ : Type}
    (run : σ → List Bytes → σ × List Event × Outcome) (fuel : Nat) (s : σ)
    (args : List Bytes) (tail : Bytes) (conn : List Bytes)
    (hlen : args.length < 2 ^ 63) (h : ∀ a ∈ args, a.length < 2 ^ 63) :
    protocolLoop run (fuel + 1) s ⟨encodeRequest args ++ tail, conn⟩ =
      match run s args with
      | (s1, trace, Outcome.ok) =>
        (Step.exec args trace Outcome.ok :: (protocolLoop run fuel s1 ⟨tail, conn⟩).1,
          (protocolLoop run fuel s1 ⟨tail, conn⟩).2)
      | (_, trace, Outcome.failed msg) =>
        ([Step.exec args trace (Outcome.failed msg)], Stop.runFailed)
      | (_, trace, Outcome.panicked) =>
        ([Step.exec args trace Outcome.panicked], Stop.panicked) := by
  have hb : encodeRequest args ++ tail =
      appendInt [42] (Int.ofNat args.length) ++ crlf ++ ((args.map encodeArg).flatten ++ tail) := by
    simp [encodeRequest]
  have hpeek : Reader.peek1 ⟨encodeRequest args ++ tail, conn⟩ =
      (some 42, ⟨encodeRequest args ++ tail, conn⟩) := by
    rw [hb, appendInt_ofNat]
    rfl
  have hlenr := readLength_buffered 42 args.length hlen ((args.map encodeArg).flatten ++ tail) conn
  rw [← hb] at hlenr
  have hargs := readArgs_buffered args [] tail conn h
  have hnat : (Int.ofNat args.length).toNat = args.length := rfl
  rw [protocolLoop]
  simp only [hpeek, hlenr, hnat, hargs, ne_eq, not_true_eq_false, if_false, List.nil_append,
    List.map_nil, List.append_nil]


/-- A segment no longer than the buffer is read in one piece. -/
theorem connRead_whole (seg : Bytes) (h0 : seg ≠ []) (h : seg.length ≤ bufSize) :
    connRead bufSize [seg] = some (seg, []) := by
  cases seg with
  | nil => exact absurd rfl h0
  | cons x t =>
    simp only [connRead, List.isEmpty_cons, Bool.false_eq_true, if_false, h, if_true]
    rw [List.take_of_length_le h]

/-- `Peek(1)` on an empty buffer loads such a segment. -/
theorem peek1_whole (seg : Bytes) (h0 : seg ≠ []) (h : seg.length ≤ bufSize) :
    Reader.peek1 ⟨[], [seg]⟩ = Reader.peek1 ⟨seg, []⟩ := by
  cases seg with
  | nil => exact absurd rfl h0
  | cons x t =>
    have := connRead_whole (x :: t) h0 h
    simp only [Reader.peek1, Reader.fill, List.length_nil, Nat.sub_zero, this, List.nil_append,
      List.head?_cons]

/-- The read loop on such a segment, before and after it is loaded. -/
theorem protocolLoop_whole {σ : Type} (run : σ → List Bytes → σ × List Event × Outcome)
    (fuel : Nat) (s : σ) (seg : Bytes) (h0 : seg ≠ []) (h : seg.length ≤ bufSize) :
    protocolLoop run (fuel + 1) s ⟨[], [seg]⟩ = protocolLoop run (fuel + 1) s ⟨seg, []⟩ := by
  rw [protocolLoop, protocolLoop, peek1_whole seg h0 h]

/-- At the end of the stream the read loop returns. -/
theorem protocolLoop_drained {σ : Type} (run : σ → List Bytes → σ × List Event × Outcome)
    (fuel : Nat) (s : σ) : protocolLoop run (fuel + 1) s ⟨[], []⟩ = ([], Stop.closed) := by
  rw [protocolLoop]
  rfl

/-- An encoded request has four bytes at least. -/
theorem encodeRequest_length_pos (args : List Bytes) : 4 ≤ (encodeRequest args).length := by
  have h := natDigits_ne_nil args.length
  have : 1 ≤ (natDigits args.length).length := by
    cases hd : natDigits args.length with
    | nil => exact absurd hd h
    | cons x t => simp
  simp only [encodeRequest, appendInt_ofNat, List.length_append, List.length_singleton, crlf,
    List.length_cons, List.length_nil]
  omega


/-- The argument loop reads arguments that are wholly in the buffer and goes on behind them. -/
theorem readArgs_consumes (xs : List Bytes) : ∀ (n : Nat) (acc : List Bytes) (tail : Bytes)
    (conn : List Bytes), (∀ a ∈ xs, a.length < 2 ^ 63) →
    readArgs (xs.length + n) ⟨(xs.map encodeArg).flatten ++ tail, conn⟩ acc =
      readArgs n ⟨tail, conn⟩ (acc ++ xs) := by
  induction xs with
  | nil => intro n acc tail conn _; simp
  | cons a t ih =>
    intro n acc tail conn h
    have ha := h a (List.mem_cons_self _ _)
    have hb : ((a :: t).map encodeArg).flatten ++ tail =
        appendInt [36] (Int.ofNat a.length) ++ crlf ++
          (a ++ (13 :: 10 :: ((t.map encodeArg).flatten ++ tail))) := by
      simp [encodeArg, crlf]
    have hl : (a :: t).length + n = (t.length + n) + 1 := by
      simp only [List.length_cons]; omega
    rw [hb, hl]
    simp only [readArgs, readLength_buffered 36 a.length ha]
    have hneg : ¬ (Int.ofNat a.length < 0) := by
      simp only [Int.ofNat_eq_coe]
      omega
    have hnat : (Int.ofNat a.length).toNat = a.length := rfl
    simp only [hneg, if_false, hnat, readFull_buffered]
    have hread : (Reader.read 2 ⟨13 :: 10 :: ((t.map encodeArg).flatten ++ tail), conn⟩).2 =
        ⟨(t.map encodeArg).flatten ++ tail, conn⟩ := rfl
    rw [hread, ih n (acc ++ [a]) tail conn (fun b hb => h b (List.mem_cons_of_mem _ hb))]
    simp

/-- The last argument when the buffer ends between its final `\r` and `\n`: the argument is read,
and `c.r.Read(scratch)` takes the `\r` alone. -/
theorem readArgs_last_short (last : Bytes) (acc : List Bytes) (conn : List Bytes)
    (h : last.length < 2 ^ 63) :
    readArgs 1 ⟨appendInt [36] (Int.ofNat last.length) ++ crlf ++ (last ++ [13]), conn⟩ acc =
      ([], Sum.inl (acc ++ [last]), ⟨[], conn⟩) := by
  have hneg : ¬ (Int.ofNat last.length < 0) := by
    simp only [Int.ofNat_eq_coe]
    omega
  have hnat : (Int.ofNat last.length).toNat = last.length := rfl
  simp only [readArgs, readLength_buffered 36 last.length h, hneg, if_false, hnat,
    readFull_buffered]
  rfl


/-- A round of the read loop that finds a lone line feed first: `processInline` reads the line `\n`
and `line[:len(line)-2]` panics. -/
theorem protocolLoop_stray_newline {σ : Type} (run : σ → List Bytes → σ × List Event × Outcome)
    (fuel : Nat) (s : σ) (tail : Bytes) :
    protocolLoop run (fuel + 1) s ⟨[], [10 :: tail]⟩ = ([], Stop.panicked) := by
  have hread : connRead bufSize [10 :: tail] =
      some (10 :: tail.take 4095, if (10 :: tail).length ≤ bufSize then [] else
        [(10 :: tail).drop bufSize]) := by
    simp [connRead, bufSize]
  have hpeek : Reader.peek1 ⟨[], [10 :: tail]⟩ =
      (some 10, ⟨10 :: tail.take 4095, if (10 :: tail).length ≤ bufSize then [] else
        [(10 :: tail).drop bufSize]⟩) := by
    simp only [Reader.peek1, Reader.fill, List.length_nil, Nat.sub_zero, hread, List.nil_append,
      List.head?_cons]
  rw [protocolLoop]
  simp only [hpeek]
  have hne : (10 : UInt8) ≠ 42 := by decide
  simp only [ne_eq, hne, not_false_eq_true, if_true]
  generalize (if (10 :: tail).length ≤ bufSize then [] else [(10 :: tail).drop bufSize]) = c
  have hs : Reader.readSlice 10 (bufSize + 1) ⟨10 :: tail.take 4095, c⟩ =
      ([10], SliceEnd.found, ⟨tail.take 4095, c⟩) := by
    simp [Reader.readSlice, splitAtDelim]
  simp [Reader.readBytes, hs]

/-- A request one byte longer than the buffer of the reader, delivered in one segment with any bytes
behind it: the command is executed, then the read loop panics on the line feed left over. -/
theorem protocolHandler_request_past_buffer {σ : Type}
    (run : σ → List Bytes → σ × List Event × Outcome) (s s1 : σ) (init : List Bytes)
    (last : Bytes) (t : List Event) (tail : Bytes)
    (hlen : (init ++ [last]).length < 2 ^ 63) (h : ∀ a ∈ init ++ [last], a.length < 2 ^ 63)
    (hsize : (encodeRequest (init ++ [last])).length = bufSize + 1)
    (h1 : run s (init ++ [last]) = (s1, t, Outcome.ok)) :
    protocolHandler run s [encodeRequest (init ++ [last]) ++ tail] =
      ([Step.exec (init ++ [last]) t Outcome.ok], Stop.panicked) := by
  have hE : encodeRequest (init ++ [last]) =
      (appendInt [42] (Int.ofNat (init ++ [last]).length) ++ crlf ++
        ((init.map encodeArg).flatten ++
          (appendInt [36] (Int.ofNat last.length) ++ crlf ++ (last ++ [13])))) ++ [10] := by
    simp [encodeRequest, encodeArg, crlf]
  generalize hE' : (appendInt [42] (Int.ofNat (init ++ [last]).length) ++ crlf ++
        ((init.map encodeArg).flatten ++
          (appendInt [36] (Int.ofNat last.length) ++ crlf ++ (last ++ [13])))) = E' at hE
  have hElen : E'.length = bufSize := by
    rw [hE] at hsize
    simpa using hsize
  have hseg : encodeRequest (init ++ [last]) ++ tail = E' ++ (10 :: tail) := by
    rw [hE]; simp
  have hhead : E'.head? = some 42 := by
    rw [← hE', appendInt_ofNat]
    rfl
  have hread : connRead bufSize [E' ++ (10 :: tail)] = some (E', [10 :: tail]) := by
    have hne : (E' ++ (10 :: tail)).isEmpty = false := by
      cases E' <;> rfl
    have htake : (E' ++ (10 :: tail)).take bufSize = E' := by
      rw [← hElen]; exact List.take_left'  rfl
    have hdrop : (E' ++ (10 :: tail)).drop bufSize = 10 :: tail := by
      rw [← hElen]; exact List.drop_left' rfl
    have hlong : ¬ ((E' ++ (10 :: tail)).length ≤ bufSize) := by
      simp only [List.length_append, List.length_cons, hElen]
      omega
    simp only [connRead, hne, Bool.false_eq_true, if_false, htake, hdrop, hlong]
  have hpeek : Reader.peek1 ⟨[], [E' ++ (10 :: tail)]⟩ = (some 42, ⟨E', [10 :: tail]⟩) := by
    simp only [Reader.peek1, Reader.fill, List.length_nil, Nat.sub_zero, hread, List.nil_append,
      hhead]
  have hl := readLength_buffered 42 (init ++ [last]).length hlen
    ((init.map encodeArg).flatten ++
      (appendInt [36] (Int.ofNat last.length) ++ crlf ++ (last ++ [13]))) [10 :: tail]
  rw [hE'] at hl
  have hnat : (Int.ofNat (init ++ [last]).length).toNat = init.length + 1 := by
    simp
  have hinit : ∀ a ∈ init, a.length < 2 ^ 63 := fun a ha => h a (List.mem_append_left _ ha)
  have hlast : last.length < 2 ^ 63 := h last (by simp)
  have hargs := readArgs_consumes init 1 []
    (appendInt [36] (Int.ofNat last.length) ++ crlf ++ (last ++ [13])) [10 :: tail] hinit
  rw [readArgs_last_short last _ _ hlast] at hargs
  obtain ⟨k, hk⟩ : ∃ k, (Reader.mk [] [encodeRequest (init ++ [last]) ++ tail]).pending + 1 =
      k + 2 := by
    refine ⟨(encodeRequest (init ++ [last]) ++ tail).length - 1, ?_⟩
    have : 1 ≤ (encodeRequest (init ++ [last]) ++ tail).length := by
      rw [List.length_append, hsize]; omega
    simp only [Reader.pending, List.length_nil, List.map_cons, List.map_nil, List.sum_cons,
      List.sum_nil]
    omega
  unfold protocolHandler
  rw [hk, hseg, protocolLoop]
  simp only [hpeek, hl, hnat, hargs, h1, ne_eq, not_true_eq_false, if_false, List.nil_append,
    List.map_nil, List.append_nil, protocolLoop_stray_newline]


/-- `ECHO data` in the concrete environment. -/
theorem demoRun_echo (data : Bytes) :
    demoRun (demoEnv none) () ([bs "ECHO"] ++ [data]) =
      ((), [Event.call (bs "echo") [data] false,
        Event.send (appendInt [36] (Int.ofNat data.length) ++ crlf), Event.send data,
        Event.send crlf], Outcome.ok) := by
  rfl

/-- The request `ECHO <4074 bytes>` is 4097 bytes long. -/
theorem echo_request_length :
    (encodeRequest ([bs "ECHO"] ++ [List.replicate 4074 65])).length = bufSize + 1 := by
  have d2 : appendInt [42] 2 = [42, 50] := by decide
  have d4 : appendInt [36] 4 = [36, 52] := by decide
  have d4074 : appendInt [36] 4074 = [36, 52, 48, 55, 52] := by decide
  have hE : (bs "ECHO").length = 4 := by decide
  have hlen : (List.replicate 4074 (65 : UInt8)).length = 4074 := List.length_replicate _ _
  generalize List.replicate 4074 (65 : UInt8) = data at hlen
  simp [encodeRequest, encodeArg, crlf, bufSize, d2, d4, d4074, hE, hlen]


/-! ### The claims -/

/-- C1 (evaluation): the argument's trailing `\r\n` is dropped by one `c.r.Read(scratch)`, which
returns what is buffered. (a) `PING`, `PING` delivered in one segment: both are executed.
(b) The same bytes delivered in two segments that split the first request's final `\r\n`: the
first `PING` is executed, the `\n` left over is taken for an inline request and
`line[:len(line)-2]` panics, so the second request is never parsed. (c) The single request
`ECHO <4074 bytes>`, 4097 bytes long and delivered in one segment: the first fill of the
4096-byte buffer ends between `\r` and `\n`, the command is executed and the read loop panics
on the `\n` left over. -/
theorem multibulk_trailing_crlf_split :
    (protocolHandler (demoRun (demoEnv none)) ()
        [encodeRequest [bs "PING"] ++ encodeRequest [bs "PING"]] =
      ([Step.exec [bs "PING"] [Event.call (bs "ping") [] false, Event.send (bs "+PONG\r\n")]
          Outcome.ok,
        Step.exec [bs "PING"] [Event.call (bs "ping") [] false, Event.send (bs "+PONG\r\n")]
          Outcome.ok], Stop.closed)) ∧
    (bs "*1\r\n$4\r\nPING\r" ++ bs "\n*1\r\n$4\r\nPING\r\n" =
        encodeRequest [bs "PING"] ++ encodeRequest [bs "PING"] ∧
      protocolHandler (demoRun (demoEnv none)) ()
          [bs "*1\r\n$4\r\nPING\r", bs "\n*1\r\n$4\r\nPING\r\n"] =
        ([Step.exec [bs "PING"] [Event.call (bs "ping") [] false, Event.send (bs "+PONG\r\n")]
            Outcome.ok], Stop.panicked)) ∧
    ((encodeRequest [bs "ECHO", List.replicate 4074 65]).length = 4097 ∧
      protocolHandler (demoRun (demoEnv none)) ()
          [encodeRequest [bs "ECHO", List.replicate 4074 65]] =
        ([Step.exec [bs "ECHO", List.replicate 4074 65]
            [Event.call (bs "echo") [List.replicate 4074 65] false,
              Event.send (bs "$4074\r\n"), Event.send (List.replicate 4074 65),
              Event.send (bs "\r\n")] Outcome.ok], Stop.panicked)) := by
  have h := protocolHandler_request_past_buffer (demoRun (demoEnv none)) () () [bs "ECHO"]
    (List.replicate 4074 65) _ [] (by decide)
    (by
      intro a ha
      simp only [List.mem_append, List.mem_singleton] at ha
      rcases ha with ha | ha <;> subst ha
      · decide
      · rw [List.length_replicate]
        decide)
    echo_request_length (demoRun_echo _)
  have hf : appendInt [36] (Int.ofNat (List.replicate 4074 (65 : UInt8)).length) ++ crlf =
      bs "$4074\r\n" := by
    rw [List.length_replicate]
    decide
  rw [hf, List.append_nil] at h
  exact ⟨by decide, by decide, echo_request_length, h⟩

/-- C2 (evaluation): for a non-negative arity the test of `runCommand` rejects a request only
when it has more arguments than the arity. `ECHO` has arity 1, yet the request `ECHO` without
an argument passes the test, the handler is called with no argument and panics on `args[0]`. -/
theorem arity_accepts_missing_argument :
    (∀ (arity : Int) (n : Nat), 0 ≤ arity →
      (arityRejects arity n = true ↔ arity < Int.ofNat n - 1)) ∧
    (commands (demoEnv none).table (bs "echo")).map (fun c => c.arity) = some 1 ∧
    arityRejects 1 1 = false ∧
    runCommand (demoEnv none) [bs "ECHO"] [] =
      ([Event.call (bs "echo") [] false], Outcome.panicked) := by
  refine ⟨?_, by decide, by decide, by decide⟩
  intro arity n h
  have hneg : ¬ arity < 0 := by omega
  simp [arityRejects, hneg, h]

/-- Commits of a trace in two parts. -/
theorem commitCount_append (a b : List Event) :
    commitCount (a ++ b) = commitCount a + commitCount b := by
  simp [commitCount]

/-- Sending frames commits nothing. -/
theorem commitCount_sends (fr : List Bytes) : commitCount (sends fr) = 0 := by
  induction fr with
  | nil => rfl
  | cons f t ih =>
    simp only [sends, List.map_cons, commitCount] at ih ⊢
    rw [List.count_cons, ih]; simp

/-- Locking commits nothing. -/
theorem commitCount_map_lock (ks : List Bytes) : commitCount (ks.map Event.lock) = 0 := by
  induction ks with
  | nil => rfl
  | cons f t ih =>
    simp only [List.map_cons, commitCount] at ih ⊢
    rw [List.count_cons, ih]; simp

/-- Unlocking commits nothing. -/
theorem commitCount_map_unlock (ks : List Bytes) : commitCount (ks.map Event.unlock) = 0 := by
  induction ks with
  | nil => rfl
  | cons f t ih =>
    simp only [List.map_cons, commitCount] at ih ⊢
    rw [List.count_cons, ih]; simp

/-- `lockKeys` commits nothing. -/
theorem commitCount_lockKeys {c : cmdDesc} {args spare : List Bytes} {l : List Event}
    (h : lockKeys c args spare = some l) : commitCount l = 0 := by
  unfold lockKeys at h
  split at h
  · cases h; rfl
  · cases hk : getKeys c args spare with
    | none => simp [hk] at h
    | some ks => simp [hk] at h; subst h; exact commitCount_map_lock ks

/-- `unlockKeys` commits nothing. -/
theorem commitCount_unlockKeys {c : cmdDesc} {args spare : List Bytes} {l : List Event}
    (h : unlockKeys c args spare = some l) : commitCount l = 0 := by
  unfold unlockKeys at h
  split at h
  · cases h; rfl
  · cases hk : getKeys c args spare with
    | none => simp [hk] at h
    | some ks => simp [hk] at h; subst h; exact commitCount_map_unlock ks

/-- The handler call is not a commit. -/
theorem commitCount_call (n : Bytes) (a : List Bytes) (b : Bool) :
    commitCount [Event.call n a b] = 0 := by
  simp [commitCount]

/-- The trace and outcome of `runCommand` once the handler has returned `res`. -/
theorem runCommand_dispatched (env : Env) (name : Bytes) (rest spare : List Bytes) (c : cmdDesc)
    (locks : List Event) (res : Reply)
    (hc : commands env.table (env.toLower name) = some c)
    (ha : arityRejects c.arity (name :: rest).length = false)
    (hl : lockKeys c rest spare = some locks)
    (hf : c.function rest c.writes = some res) :
    runCommand env (name :: rest) spare =
      match (if c.writes && !res.isError then env.dbWrite rest else none) with
      | some msg =>
        (locks ++ [Event.call c.name rest c.writes] ++
            (if c.writes && !res.isError then [Event.commit] else []) ++
            sends (writeError (bs "data write error: " ++ msg)), Outcome.failed msg)
      | none =>
        match unlockKeys c rest spare with
        | none => (locks ++ [Event.call c.name rest c.writes] ++
            (if c.writes && !res.isError then [Event.commit] else []), Outcome.panicked)
        | some unlocks =>
          (locks ++ [Event.call c.name rest c.writes] ++
              (if c.writes && !res.isError then [Event.commit] else []) ++ unlocks ++
              sends (writeReply res).1,
            if (writeReply res).2 then Outcome.ok else Outcome.panicked) := by
  simp only [runCommand, hc, ha, hl, hf]
  rfl


/-- What `lockKeys` returns: nothing for a read command, the locks of `getKeys` for a write command. -/
theorem lockKeys_cases {c : cmdDesc} {args spare : List Bytes} {l : List Event}
    (h : lockKeys c args spare = some l) :
    (c.writes = false ∧ l = []) ∨
      (c.writes = true ∧ ∃ ks, getKeys c args spare = some ks ∧ l = ks.map Event.lock) := by
  unfold lockKeys at h
  cases hw : c.writes with
  | false => simp [hw] at h; exact Or.inl ⟨rfl, h⟩
  | true =>
    simp [hw] at h
    obtain ⟨ks, hk, rfl⟩ := h
    exact Or.inr ⟨rfl, ks, hk, rfl⟩

/-- What `unlockKeys` returns: nothing for a read command, the unlocks of `getKeys` for a write
command. -/
theorem unlockKeys_cases {c : cmdDesc} {args spare : List Bytes} {l : List Event}
    (h : unlockKeys c args spare = some l) :
    (c.writes = false ∧ l = []) ∨
      (c.writes = true ∧ ∃ ks, getKeys c args spare = some ks ∧ l = ks.map Event.unlock) := by
  unfold unlockKeys at h
  cases hw : c.writes with
  | false => simp [hw] at h; exact Or.inl ⟨rfl, h⟩
  | true =>
    simp [hw] at h
    obtain ⟨ks, hk, rfl⟩ := h
    exact Or.inr ⟨rfl, ks, hk, rfl⟩

/-- `lockKeys` calls no handler. -/
theorem call_not_mem_lockKeys {c : cmdDesc} {args spare : List Bytes} {l : List Event}
    (h : lockKeys c args spare = some l) (n : Bytes) (a : List Bytes) (b : Bool) :
    Event.call n a b ∉ l := by
  rcases lockKeys_cases h with ⟨_, rfl⟩ | ⟨_, ks, _, rfl⟩ <;> simp

/-- `unlockKeys` calls no handler. -/
theorem call_not_mem_unlockKeys {c : cmdDesc} {args spare : List Bytes} {l : List Event}
    (h : unlockKeys c args spare = some l) (n : Bytes) (a : List Bytes) (b : Bool) :
    Event.call n a b ∉ l := by
  rcases unlockKeys_cases h with ⟨_, rfl⟩ | ⟨_, ks, _, rfl⟩ <;> simp

/-- Sending frames calls no handler. -/
theorem call_not_mem_sends (fr : List Bytes) (n : Bytes) (a : List Bytes) (b : Bool) :
    Event.call n a b ∉ sends fr := by
  simp [sends]

/-- C3: in every execution of `runCommand` the batch is committed at most once, and it is
committed exactly when the request reaches the handler of a write command and the handler's
return value is not an error; a handler is passed a batch only by a write command. -/
theorem runCommand_commit_iff (env : Env) (args spare : List Bytes) :
    commitCount (runCommand env args spare).1 ≤ 1 ∧
    (commitCount (runCommand env args spare).1 = 1 ↔
      ∃ name rest c res, args = name :: rest ∧
        commands env.table (env.toLower name) = some c ∧
        arityRejects c.arity args.length = false ∧
        (lockKeys c rest spare).isSome = true ∧
        c.function rest c.writes = some res ∧
        c.writes = true ∧ res.isError = false) ∧
    (∀ n a, Event.call n a true ∈ (runCommand env args spare).1 →
      ∃ name rest c, args = name :: rest ∧
        commands env.table (env.toLower name) = some c ∧ c.writes = true ∧
        n = c.name ∧ a = rest) := by
  cases args with
  | nil =>
    have h0 : commitCount (runCommand env [] spare).1 = 0 := commitCount_sends _
    refine ⟨by omega, ⟨fun h => by omega, fun h => ?_⟩, fun n a h => ?_⟩
    · obtain ⟨_, _, _, _, h, _⟩ := h
      cases h
    · exact absurd h (call_not_mem_sends _ n a true)
  | cons name rest =>
    cases hc : commands env.table (env.toLower name) with
    | none =>
      have hr : runCommand env (name :: rest) spare =
          (sends (writeError (bs "unknown command '" ++ name ++ bs "'")), Outcome.ok) := by
        simp only [runCommand, hc]
      have h0 : commitCount (runCommand env (name :: rest) spare).1 = 0 := by
        rw [hr]; exact commitCount_sends _
      refine ⟨by omega, ⟨fun h => by omega, fun h => ?_⟩, fun n a h => ?_⟩
      · obtain ⟨_, _, _, _, h, h2, _⟩ := h
        cases h
        rw [hc] at h2
        cases h2
      · rw [hr] at h
        exact absurd h (call_not_mem_sends _ n a true)
    | some c =>
      cases ha : arityRejects c.arity (name :: rest).length with
      | true =>
        have hr : runCommand env (name :: rest) spare =
            (sends (writeError (bs "wrong number of arguments for '" ++ name ++ bs "' command")),
              Outcome.ok) := by
          simp only [runCommand, hc, ha]
          rfl
        have h0 : commitCount (runCommand env (name :: rest) spare).1 = 0 := by
          rw [hr]; exact commitCount_sends _
        refine ⟨by omega, ⟨fun h => by omega, fun h => ?_⟩, fun n a h => ?_⟩
        · obtain ⟨_, _, _, _, h, h2, h3, _⟩ := h
          cases h
          rw [hc] at h2
          cases h2
          rw [ha] at h3
          cases h3
        · rw [hr] at h
          exact absurd h (call_not_mem_sends _ n a true)
      | false =>
        cases hl : lockKeys c rest spare with
        | none =>
          have hr : runCommand env (name :: rest) spare = ([], Outcome.panicked) := by
            simp only [runCommand, hc, ha, hl]
            rfl
          have h0 : commitCount (runCommand env (name :: rest) spare).1 = 0 := by
            rw [hr]; rfl
          refine ⟨by omega, ⟨fun h => by omega, fun h => ?_⟩, fun n a h => ?_⟩
          · obtain ⟨_, _, _, _, h, h2, _, h4, _⟩ := h
            cases h
            rw [hc] at h2
            cases h2
            rw [hl] at h4
            cases h4
          · rw [hr] at h
            cases h
        | some locks =>
          have hlocks := commitCount_lockKeys hl
          cases hf : c.function rest c.writes with
          | none =>
            have hr : runCommand env (name :: rest) spare =
                (locks ++ [Event.call c.name rest c.writes], Outcome.panicked) := by
              simp only [runCommand, hc, ha, hl, hf]
              rfl
            have h0 : commitCount (runCommand env (name :: rest) spare).1 = 0 := by
              rw [hr]
              simp only [commitCount_append, hlocks, commitCount_call]
            refine ⟨by omega, ⟨fun h => by omega, fun h => ?_⟩, fun n a h => ?_⟩
            · obtain ⟨_, _, _, _, h, h2, _, _, h5, _⟩ := h
              cases h
              rw [hc] at h2
              cases h2
              rw [hf] at h5
              cases h5
            · rw [hr] at h
              simp only [List.mem_append, List.mem_singleton] at h
              rcases h with h | h
              · exact absurd h (call_not_mem_lockKeys hl n a true)
              · simp only [Event.call.injEq] at h
                exact ⟨name, rest, c, rfl, hc, h.2.2.symm, h.1, h.2.1⟩
          | some res =>
            have hr := runCommand_dispatched env name rest spare c locks res hc ha hl hf
            have hcall : ∀ n a, Event.call n a true ∈ (runCommand env (name :: rest) spare).1 →
                ∃ name' rest' c', name :: rest = name' :: rest' ∧
                  commands env.table (env.toLower name') = some c' ∧ c'.writes = true ∧
                  n = c'.name ∧ a = rest' := by
              intro n a h
              refine ⟨name, rest, c, rfl, hc, ?_⟩
              rw [hr] at h
              have key : Event.call n a true = Event.call c.name rest c.writes →
                  c.writes = true ∧ n = c.name ∧ a = rest := by
                intro e
                simp only [Event.call.injEq] at e
                exact ⟨e.2.2.symm, e.1, e.2.1⟩
              split at h
              · simp only [List.mem_append, List.mem_singleton] at h
                rcases h with ((h | h) | h) | h
                · exact absurd h (call_not_mem_lockKeys hl n a true)
                · exact key h
                · split at h
                  · simp at h
                  · simp at h
                · exact absurd h (call_not_mem_sends _ n a true)
              · split at h
                · simp only [List.mem_append, List.mem_singleton] at h
                  rcases h with (h | h) | h
                  · exact absurd h (call_not_mem_lockKeys hl n a true)
                  · exact key h
                  · split at h
                    · simp at h
                    · simp at h
                · rename_i unlocks hu
                  simp only [List.mem_append, List.mem_singleton] at h
                  rcases h with (((h | h) | h) | h) | h
                  · exact absurd h (call_not_mem_lockKeys hl n a true)
                  · exact key h
                  · split at h
                    · simp at h
                    · simp at h
                  · exact absurd h (call_not_mem_unlockKeys hu n a true)
                  · exact absurd h (call_not_mem_sends _ n a true)
            have hcount : commitCount (runCommand env (name :: rest) spare).1 =
                if c.writes && !res.isError then 1 else 0 := by
              rw [hr]
              split
              · simp only [commitCount_append, hlocks, commitCount_call, commitCount_sends]
                split <;> simp [commitCount]
              · split
                · simp only [commitCount_append, hlocks, commitCount_call]
                  split <;> simp [commitCount]
                · rename_i unlocks hu
                  simp only [commitCount_append, hlocks, commitCount_call, commitCount_sends,
                    commitCount_unlockKeys hu]
                  split <;> simp [commitCount]
            refine ⟨?_, ⟨fun h => ?_, fun h => ?_⟩, hcall⟩
            · rw [hcount]; split <;> omega
            · rw [hcount] at h
              refine ⟨name, rest, c, res, rfl, hc, ha, by simp [hl], hf, ?_⟩
              cases hw : c.writes <;> cases he : res.isError <;> simp [hw, he] at h ⊢
            · obtain ⟨_, _, c', res', h, h2, _, _, h5, h6, h7⟩ := h
              cases h
              rw [hc] at h2
              cases h2
              rw [hf] at h5
              cases h5
              rw [hcount]
              simp [h6, h7]


/-- A failed step of a list whose first part has none lies in the second part. -/
theorem failed_in_append (l1 l2 pre post : List Step) (e : Step)
    (h1 : ∀ x ∈ l1, Step.isFailed x = false) (he : Step.isFailed e = true)
    (h : l1 ++ l2 = pre ++ e :: post) : ∃ pre', l2 = pre' ++ e :: post := by
  induction l1 generalizing pre with
  | nil => exact ⟨pre, h⟩
  | cons x t ih =>
    cases pre with
    | nil =>
      simp only [List.cons_append, List.nil_append, List.cons.injEq] at h
      have := h1 x (List.mem_cons_self _ _)
      rw [h.1, he] at this
      cases this
    | cons p pre' =>
      simp only [List.cons_append, List.cons.injEq] at h
      exact ih pre' (fun y hy => h1 y (List.mem_cons_of_mem _ hy)) h.2

/-- Frames of the parser are no failed steps. -/
theorem sends_not_failed (fr : List Bytes) : ∀ x ∈ fr.map Step.send, Step.isFailed x = false := by
  intro x hx
  simp only [List.mem_map] at hx
  obtain ⟨f, _, rfl⟩ := hx
  rfl

/-- A list without failed step does not split at one. -/
theorem no_failed_split (l pre post : List Step) (e : Step)
    (h1 : ∀ x ∈ l, Step.isFailed x = false) (he : Step.isFailed e = true) :
    l ≠ pre ++ e :: post := by
  intro h
  have := h1 e (by rw [h]; simp)
  rw [he] at this
  cases this

/-- When only the last step may have failed, nothing follows a failed step. -/
theorem single_failed_split (l pre post : List Step) (x e : Step)
    (h1 : ∀ y ∈ l, Step.isFailed y = false) (he : Step.isFailed e = true)
    (h : l ++ [x] = pre ++ e :: post) : post = [] := by
  obtain ⟨pre', hp⟩ := failed_in_append l [x] pre post e h1 he h
  cases pre' with
  | nil =>
    simp only [List.nil_append, List.cons.injEq] at hp
    exact hp.2.symm
  | cons a t =>
    simp only [List.cons_append, List.cons.injEq] at hp
    have := hp.2
    cases t <;> simp at this

/-- In the read loop, nothing follows a `runCommand` call that returned an error. -/
theorem protocolLoop_failed_aux {σ : Type} (run : σ → List Bytes → σ × List Event × Outcome)
    (fuel : Nat) : ∀ (s : σ) (r : Reader) (pre post : List Step) (e : Step)
    (p : List Step × Stop), p = protocolLoop run fuel s r →
    Step.isFailed e = true → p.1 = pre ++ e :: post →
    post = [] ∧ p.2 = Stop.runFailed := by
  induction fuel with
  | zero =>
    intro s r pre post e p hp he h
    subst hp
    simp [protocolLoop] at h
  | succ n ih =>
    intro s r pre post e p hp he h
    unfold protocolLoop at hp
    split at hp
    · subst hp; simp at h
    · split at hp
      · split at hp
        · subst hp; simp at h
        · split at hp
          · subst hp; simp at h
          · split at hp
            · subst hp
              simp only at h
              rename_i s1 trace hrun
              obtain ⟨pre', hp'⟩ := failed_in_append [_] _ pre post e
                (by intro x hx; simp only [List.mem_singleton] at hx; subst hx; rfl) he h
              have hh := ih _ _ pre' post e _ rfl he hp'
              exact hh
            · subst hp
              simp only at h
              refine ⟨single_failed_split [] pre post _ e (by simp) he h, rfl⟩
            · subst hp
              simp only at h
              exfalso
              refine no_failed_split _ pre post e ?_ he h
              intro x hx
              simp only [List.mem_singleton] at hx
              subst hx
              rfl
      · split at hp
        · subst hp
          exact absurd h (no_failed_split _ pre post e (sends_not_failed _) he)
        · split at hp
          · subst hp
            exact absurd h (no_failed_split _ pre post e (sends_not_failed _) he)
          · split at hp
            · subst hp
              simp only at h
              rename_i fr0 argc r2 fr2 args r3 hra s1 trace hrun
              obtain ⟨pre', hp'⟩ := failed_in_append _ _ pre post e (sends_not_failed _) he h
              obtain ⟨pre'', hp''⟩ := failed_in_append [_] _ pre' post e
                (by intro x hx; simp only [List.mem_singleton] at hx; subst hx; rfl) he hp'
              have hh := ih _ _ pre'' post e _ rfl he hp''
              exact hh
            · subst hp
              simp only at h
              exact ⟨single_failed_split _ pre post _ e (sends_not_failed _) he h, rfl⟩
            · subst hp
              simp only at h
              exfalso
              obtain ⟨pre', hp'⟩ := failed_in_append _ _ pre post e (sends_not_failed _) he h
              refine no_failed_split _ pre' post e ?_ he hp'
              intro x hx
              simp only [List.mem_singleton] at hx
              subst hx
              rfl

/-- In the read loop a `runCommand` call that returned an error is the last step, and the loop stops
for it. -/
theorem protocolLoop_failed_last {σ : Type} (run : σ → List Bytes → σ × List Event × Outcome)
    (fuel : Nat) (s : σ) (r : Reader) (pre post : List Step) (e : Step)
    (he : Step.isFailed e = true) (h : (protocolLoop run fuel s r).1 = pre ++ e :: post) :
    post = [] ∧ (protocolLoop run fuel s r).2 = Stop.runFailed :=
  protocolLoop_failed_aux run fuel s r pre post e _ rfl he h

/-- Frames of a trace in two parts. -/
theorem framesOf_append (a b : List Event) : framesOf (a ++ b) = framesOf a ++ framesOf b := by
  induction a with
  | nil => rfl
  | cons e t ih => cases e <;> simp [framesOf, ih]

/-- `lockKeys` sends no frame. -/
theorem framesOf_lockKeys {c : cmdDesc} {args spare : List Bytes} {l : List Event}
    (h : lockKeys c args spare = some l) : framesOf l = [] := by
  have hmap : ∀ ks : List Bytes, framesOf (ks.map Event.lock) = [] := by
    intro ks
    induction ks with
    | nil => rfl
    | cons k t ih => simpa [framesOf] using ih
  rcases lockKeys_cases h with ⟨_, rfl⟩ | ⟨_, ks, _, rfl⟩
  · rfl
  · exact hmap ks

/-- The trace of `runCommand` when the commit of a write command fails. -/
theorem runCommand_commit_failed (env : Env) (name : Bytes) (rest spare : List Bytes)
    (c : cmdDesc) (locks : List Event) (res : Reply) (msg : Bytes)
    (hc : commands env.table (env.toLower name) = some c)
    (ha : arityRejects c.arity (name :: rest).length = false)
    (hl : lockKeys c rest spare = some locks)
    (hf : c.function rest c.writes = some res)
    (hw : c.writes = true) (he : res.isError = false)
    (hd : env.dbWrite rest = some msg) :
    runCommand env (name :: rest) spare =
      (locks ++ [Event.call c.name rest true, Event.commit,
        Event.send (bs "-ERR data write error: " ++ msg ++ crlf)], Outcome.failed msg) := by
  rw [runCommand_dispatched env name rest spare c locks res hc ha hl hf]
  have hb : bs "-ERR data write error: " = bs "-ERR " ++ bs "data write error: " := by decide
  simp [hw, he, hd, sends, writeError, hb]

/-- C4 (amended): when a write command's handler returns a non-error value and the commit of the
batch fails with message `msg`, the one frame `runCommand` sends is
`-ERR data write error: <msg>\r\n` and `runCommand` returns the commit error; and in every run
of the read loop a step with that result is the last one, the loop ending because
`runCommand` failed. -/
theorem commit_failure_ends_session (env : Env) (name : Bytes) (rest spare : List Bytes)
    (c : cmdDesc) (locks : List Event) (res : Reply) (msg : Bytes)
    (hc : commands env.table (env.toLower name) = some c)
    (ha : arityRejects c.arity (name :: rest).length = false)
    (hl : lockKeys c rest spare = some locks)
    (hf : c.function rest c.writes = some res)
    (hw : c.writes = true) (he : res.isError = false)
    (hd : env.dbWrite rest = some msg) :
    framesOf (runCommand env (name :: rest) spare).1 =
      [bs "-ERR data write error: " ++ msg ++ crlf] ∧
    (runCommand env (name :: rest) spare).2 = Outcome.failed msg ∧
    ∀ (σ : Type) (run : σ → List Bytes → σ × List Event × Outcome) (s : σ) (conn : List Bytes)
      (pre post : List Step),
      (protocolHandler run s conn).1 =
        pre ++ Step.exec (name :: rest) (runCommand env (name :: rest) spare).1
          (runCommand env (name :: rest) spare).2 :: post →
      post = [] ∧ (protocolHandler run s conn).2 = Stop.runFailed := by
  have hr := runCommand_commit_failed env name rest spare c locks res msg hc ha hl hf hw he hd
  refine ⟨?_, ?_, ?_⟩
  · rw [hr, framesOf_append, framesOf_lockKeys hl]
    rfl
  · rw [hr]
  · intro σ run s conn pre post h
    rw [hr] at h
    exact protocolLoop_failed_last run _ s _ pre post (Step.exec _ _ (Outcome.failed msg)) rfl h

/-- C4 (amended), at `SET k v` with a commit that fails with `disk full`. -/
theorem commit_failure_ends_session_witness :
    framesOf (runCommand (demoEnv (some (bs "disk full"))) [bs "set", bs "k", bs "v"] []).1 =
      [bs "-ERR data write error: " ++ bs "disk full" ++ crlf] ∧
    (runCommand (demoEnv (some (bs "disk full"))) [bs "set", bs "k", bs "v"] []).2 =
      Outcome.failed (bs "disk full") :=
  have h := commit_failure_ends_session (demoEnv (some (bs "disk full"))) (bs "set")
    [bs "k", bs "v"] [] ⟨bs "set", fun _ _ => some ReplyOK, 2, true, 0, 0, 0, none⟩
    [Event.lock (bs "k")] ReplyOK (bs "disk full") rfl (by decide) (by decide) rfl rfl rfl rfl
  ⟨h.1, h.2.1⟩

/-- C4 fails as stated: for `SET k v` with a failing commit the only reply is
`-ERR data write error: disk full\r\n`, which does not begin with `-IOERR `, `runCommand`
returns the error, and a `PING` that follows on the connection is never executed. -/
theorem commit_failure_reply_counterexample :
    framesOf (runCommand (demoEnv (some (bs "disk full"))) [bs "set", bs "k", bs "v"] []).1 =
      [bs "-ERR data write error: disk full\r\n"] ∧
    (bs "-ERR data write error: disk full\r\n").take 7 ≠ bs "-IOERR " ∧
    (runCommand (demoEnv (some (bs "disk full"))) [bs "set", bs "k", bs "v"] []).2 =
      Outcome.failed (bs "disk full") ∧
    protocolHandler (demoRun (demoEnv (some (bs "disk full")))) ()
        [encodeRequest [bs "set", bs "k", bs "v"] ++ encodeRequest [bs "PING"]] =
      ([Step.exec [bs "set", bs "k", bs "v"]
          [Event.lock (bs "k"), Event.call (bs "set") [bs "k", bs "v"] true, Event.commit,
            Event.send (bs "-ERR data write error: disk full\r\n")]
          (Outcome.failed (bs "disk full"))], Stop.runFailed) := by
  decide


/-- Locks held after taking the locks of `ks`. -/
theorem heldLocks_map_lock (ks held : List Bytes) :
    heldLocks (ks.map Event.lock) held = held ++ ks := by
  induction ks generalizing held with
  | nil => simp [heldLocks]
  | cons k t ih => simp [heldLocks, ih]

/-- Locks held after a trace in two parts. -/
theorem heldLocks_append (a b : List Event) (held : List Bytes) :
    heldLocks (a ++ b) held = heldLocks b (heldLocks a held) := by
  induction a generalizing held with
  | nil => rfl
  | cons e t ih => cases e <;> simp [heldLocks, ih]

/-- C5 (evaluation): when the commit of a write command fails, `runCommand` returns with every
lock it took still held: the keys of `getKeys`. For `SET k v` the lock on `k` stays held after a
failed commit, while after a successful commit no lock is held. -/
theorem commit_failure_leaves_lock :
    (∀ (env : Env) (name : Bytes) (rest spare keys : List Bytes) (c : cmdDesc) (res : Reply)
        (msg : Bytes),
      commands env.table (env.toLower name) = some c →
      arityRejects c.arity (name :: rest).length = false →
      getKeys c rest spare = some keys →
      c.function rest c.writes = some res →
      c.writes = true → res.isError = false → env.dbWrite rest = some msg →
      heldLocks (runCommand env (name :: rest) spare).1 [] = keys) ∧
    heldLocks (runCommand (demoEnv (some (bs "disk full"))) [bs "set", bs "k", bs "v"] []).1 [] =
      [bs "k"] ∧
    heldLocks (runCommand (demoEnv none) [bs "set", bs "k", bs "v"] []).1 [] = [] := by
  refine ⟨?_, by decide, by decide⟩
  intro env name rest spare keys c res msg hc ha hk hf hw he hd
  have hl : lockKeys c rest spare = some (keys.map Event.lock) := by
    simp [lockKeys, hw, hk]
  rw [runCommand_commit_failed env name rest spare c _ res msg hc ha hl hf hw he hd,
    heldLocks_append, heldLocks_map_lock]
  rfl

/-- C6 (evaluation): with first key at least 0, last key -1 and key step at most 1, `getKeys`
takes the slice `args[firstKey:0]`: no key at all when the first key is 0, and a panic
otherwise. So for `DEL a b` and for `SUNIONSTORE d a b` it returns no key. -/
theorem getKeys_unbounded_is_empty :
    (∀ (c : cmdDesc) (args spare : List Bytes), c.keyLookup = none → 0 ≤ c.firstKey →
      c.lastKey = -1 → c.keyStep ≤ 1 → c.firstKey < Int.ofNat args.length →
      getKeys c args spare = if c.firstKey = 0 then some [] else none) ∧
    (commands (demoEnv none).table (bs "del")).bind
        (fun c => getKeys c [bs "a", bs "b"] []) = some [] ∧
    (commands (demoEnv none).table (bs "sunionstore")).bind
        (fun c => getKeys c [bs "d", bs "a", bs "b"] []) = some [] := by
  refine ⟨?_, by decide, by decide⟩
  intro c args spare hk h0 hl hs hlen
  have hw : wrapInt (c.lastKey + 1) = 0 := by rw [hl]; decide
  have hcond : ¬ (c.firstKey < 0 ∨ Int.ofNat args.length ≤ c.firstKey) := by omega
  simp only [getKeys, hk, hcond, if_false, hs, if_true, sliceExpr, hw]
  by_cases hz : c.firstKey = 0
  · simp [hz]
    omega
  · have : ¬ (c.firstKey ≤ 0) := by omega
    simp [hz, this]

/-- C7 (evaluation): for `RPOPLPUSH k k` the key vector of `getKeys` holds `k` twice, and
`runCommand` locks `k` twice. -/
theorem getKeys_keeps_duplicates :
    (commands (demoEnv none).table (bs "rpoplpush")).bind
        (fun c => getKeys c [bs "k", bs "k"] []) = some [bs "k", bs "k"] ∧
    lockedKeys (runCommand (demoEnv none) [bs "rpoplpush", bs "k", bs "k"] []).1 =
      [bs "k", bs "k"] := by
  decide

/-- No wrap inside the range of `int`. -/
theorem wrapInt_of_range (x : Int) (h0 : -(2 ^ 63) ≤ x) (h1 : x < 2 ^ 63) : wrapInt x = x := by
  unfold wrapInt
  rw [Int.emod_eq_of_lt (by omega) (by omega)]
  omega

/-- C8 (amended): for a write command whose keys are found by position (no key lookup function,
key step at most 1, `0 ≤ firstKey ≤ lastKey < len(args)`), `lockKeys` acquires the locks of the
arguments at positions `firstKey .. lastKey` in the order of the arguments. -/
theorem lockKeys_argument_order (c : cmdDesc) (args spare : List Bytes)
    (hw : c.writes = true) (hk : c.keyLookup = none) (hs : c.keyStep ≤ 1)
    (h0 : 0 ≤ c.firstKey) (h1 : c.firstKey ≤ c.lastKey)
    (h2 : c.lastKey < Int.ofNat args.length) (hlen : args.length < 2 ^ 63) :
    lockKeys c args spare =
      some (((args.drop c.firstKey.toNat).take (c.lastKey.toNat + 1 - c.firstKey.toNat)).map
        Event.lock) := by
  have hwrap : wrapInt (c.lastKey + 1) = c.lastKey + 1 := by
    apply wrapInt_of_range
    · omega
    · have : (Int.ofNat args.length) < 2 ^ 63 := by
        have := Int.ofNat_lt.mpr hlen
        simpa using this
      omega
  have hlo : ¬ (c.firstKey < 0 ∨ Int.ofNat args.length ≤ c.firstKey) := by omega
  have hcond : 0 ≤ c.firstKey ∧ c.firstKey ≤ c.lastKey + 1 ∧
      c.lastKey + 1 ≤ Int.ofNat (args.length + spare.length) := by
    refine ⟨h0, by omega, ?_⟩
    have : Int.ofNat (args.length + spare.length) = Int.ofNat args.length + Int.ofNat spare.length := rfl
    have : 0 ≤ Int.ofNat spare.length := Int.ofNat_nonneg _
    omega
  have hhi : (c.lastKey + 1).toNat = c.lastKey.toNat + 1 := by omega
  have hle : c.lastKey.toNat + 1 ≤ args.length := by
    have : c.lastKey < (args.length : Int) := h2
    omega
  simp only [lockKeys, hw, getKeys, hk, hlo, hs, sliceExpr, hwrap, hcond, hhi]
  simp only [Bool.not_true, Bool.false_eq_true, if_false, if_true, and_self, Option.map_some',
    Option.some.injEq]
  congr 1
  rw [List.take_drop, List.take_drop]
  congr 1
  have h3 : c.firstKey.toNat + (c.lastKey.toNat + 1 - c.firstKey.toNat) ≤ args.length := by
    omega
  rw [List.take_append_of_le_length h3]

/-- C8 (amended), at `RPOPLPUSH b a`: `b` is locked before `a`. -/
theorem lockKeys_argument_order_witness :
    lockKeys ⟨bs "rpoplpush", fun _ _ => some ReplyOK, 2, true, 0, 1, 0, none⟩
        [bs "b", bs "a"] [] =
      some [Event.lock (bs "b"), Event.lock (bs "a")] :=
  lockKeys_argument_order ⟨bs "rpoplpush", fun _ _ => some ReplyOK, 2, true, 0, 1, 0, none⟩
    [bs "b", bs "a"] [] rfl rfl (by decide) (by decide) (by decide) (by decide) (by decide)

/-- C8 fails as stated: whatever the stripe index function, the lock sequences of
`RPOPLPUSH a b` and of `RPOPLPUSH b a` are not both sorted by (lock index, key bytes). -/
theorem lock_order_counterexample :
    ¬ ∃ idx : Bytes → Nat,
      List.Pairwise (lockOrder idx)
        (lockedKeys (runCommand (demoEnv none) [bs "rpoplpush", bs "a", bs "b"] []).1) ∧
      List.Pairwise (lockOrder idx)
        (lockedKeys (runCommand (demoEnv none) [bs "rpoplpush", bs "b", bs "a"] []).1) := by
  have e1 : lockedKeys (runCommand (demoEnv none) [bs "rpoplpush", bs "a", bs "b"] []).1 =
      [bs "a", bs "b"] := by decide
  have e2 : lockedKeys (runCommand (demoEnv none) [bs "rpoplpush", bs "b", bs "a"] []).1 =
      [bs "b", bs "a"] := by decide
  rw [e1, e2]
  rintro ⟨idx, h1, h2⟩
  simp only [List.pairwise_cons, List.mem_singleton, forall_eq, List.not_mem_nil,
    false_implies, implies_true, List.Pairwise.nil, and_true] at h1 h2
  have hba : ¬ (bs "b" ≤ bs "a") := by decide
  unfold lockOrder at h1 h2
  rcases h1 with h1 | ⟨h1, _⟩ <;> rcases h2 with h2 | ⟨h2, h3⟩
  · omega
  · omega
  · omega
  · exact hba h3


/-- C9 (evaluation): a non-nil byte string `b` is encoded as the frames `$<len(b)>\r\n`, `b`,
`\r\n`; the nil byte string is encoded as `$-1\r\n` followed by `$0\r\n`, an empty frame and
`\r\n`. -/
theorem writeBulk_nil_falls_through :
    (∀ b : Bytes, writeReply (Reply.bulk (some b)) =
      ([appendInt [36] (Int.ofNat b.length) ++ crlf, b, crlf], true)) ∧
    writeReply (Reply.bulk none) = ([bs "$-1\r\n", bs "$0\r\n", [], bs "\r\n"], true) ∧
    (writeReply (Reply.bulk none)).1.flatten = bs "$-1\r\n$0\r\n\r\n" := by
  refine ⟨fun b => rfl, by decide, by decide⟩

/-- C10 (evaluation): the nil array is encoded as the frame `*-1\r\n` followed by a second
frame `*0\r\n`. -/
theorem writeMultibulk_nil_falls_through :
    writeReply Reply.nilMulti = ([bs "*-1\r\n", bs "*0\r\n"], true) := by
  decide


/-! ### Further properties of the parser -/

/-- A multi-bulk request of arbitrary bytes that is wholly in the buffer of the reader, followed
by any bytes `tail`: one round of the read loop calls `runCommand` on exactly the request's
argument vector and, when that returns no error, goes on with exactly `tail` in the buffer. -/
theorem protocolLoop_buffered_request {σ : Type}
    (run : σ → List Bytes → σ × List Event × Outcome) (fuel : Nat) (s : σ)
    (args : List Bytes) (tail : Bytes) (conn : List Bytes)
    (hlen : args.length < 2 ^ 63) (h : ∀ a ∈ args, a.length < 2 ^ 63) :
    protocolLoop run (fuel + 1) s ⟨encodeRequest args ++ tail, conn⟩ =
      match run s args with
      | (s1, trace, Outcome.ok) =>
        (Step.exec args trace Outcome.ok :: (protocolLoop run fuel s1 ⟨tail, conn⟩).1,
          (protocolLoop run fuel s1 ⟨tail, conn⟩).2)
      | (_, trace, Outcome.failed msg) =>
        ([Step.exec args trace (Outcome.failed msg)], Stop.runFailed)
      | (_, trace, Outcome.panicked) =>
        ([Step.exec args trace Outcome.panicked], Stop.panicked) :=
  request_step run fuel s args tail conn hlen h

/-- The round on a buffered request, at `ECHO` with an argument of the bytes CR, LF, space and
`0xff`, followed by `PING`. -/
theorem protocolLoop_buffered_request_witness :
    protocolLoop (demoRun (demoEnv none)) 3 ()
        ⟨encodeRequest [bs "ECHO", [13, 10, 32, 255]] ++ encodeRequest [bs "PING"], []⟩ =
      ([Step.exec [bs "ECHO", [13, 10, 32, 255]]
          [Event.call (bs "echo") [[13, 10, 32, 255]] false, Event.send (bs "$4\r\n"),
            Event.send [13, 10, 32, 255], Event.send (bs "\r\n")] Outcome.ok,
        Step.exec [bs "PING"] [Event.call (bs "ping") [] false, Event.send (bs "+PONG\r\n")]
          Outcome.ok], Stop.closed) :=
  (protocolLoop_buffered_request (demoRun (demoEnv none)) 2 () [bs "ECHO", [13, 10, 32, 255]]
    (encodeRequest [bs "PING"]) [] (by decide) (by decide)).trans (by decide)

/-- Two multi-bulk requests of arbitrary bytes that arrive in one segment no longer than the
buffer of the reader, when `runCommand` returns no error for either: `protocolHandler` calls
`runCommand` on the first argument vector, then on the second, and returns at the end of the
stream. -/
theorem protocolHandler_two_requests_one_segment {σ : Type}
    (run : σ → List Bytes → σ × List Event × Outcome) (s s1 s2 : σ)
    (a b : List Bytes) (t1 t2 : List Event)
    (ha : a.length < 2 ^ 63) (ha' : ∀ x ∈ a, x.length < 2 ^ 63)
    (hb : b.length < 2 ^ 63) (hb' : ∀ x ∈ b, x.length < 2 ^ 63)
    (hsize : (encodeRequest a ++ encodeRequest b).length ≤ bufSize)
    (h1 : run s a = (s1, t1, Outcome.ok)) (h2 : run s1 b = (s2, t2, Outcome.ok)) :
    protocolHandler run s [encodeRequest a ++ encodeRequest b] =
      ([Step.exec a t1 Outcome.ok, Step.exec b t2 Outcome.ok], Stop.closed) := by
  have hpa := encodeRequest_length_pos a
  have hpb := encodeRequest_length_pos b
  have hne : encodeRequest a ++ encodeRequest b ≠ [] := by
    intro e
    have := congrArg List.length e
    simp only [List.length_append, List.length_nil] at this
    omega
  obtain ⟨k, hk⟩ : ∃ k, (Reader.mk [] [encodeRequest a ++ encodeRequest b]).pending + 1 = k + 3 := by
    refine ⟨(encodeRequest a).length + (encodeRequest b).length - 2, ?_⟩
    simp only [Reader.pending, List.length_nil, List.map_cons, List.map_nil, List.sum_cons,
      List.sum_nil, List.length_append]
    omega
  unfold protocolHandler
  rw [hk, protocolLoop_whole run (k + 2) s _ hne hsize,
    request_step run (k + 2) s a (encodeRequest b) [] ha ha']
  simp only [h1]
  have hb2 := request_step run (k + 1) s1 b [] [] hb hb'
  simp only [List.append_nil, h2] at hb2
  rw [hb2, protocolLoop_drained]


/-- The two requests `ECHO <CR LF space 0xff>` and `PING` in one segment. -/
theorem protocolHandler_two_requests_one_segment_witness :
    protocolHandler (demoRun (demoEnv none)) ()
        [encodeRequest [bs "ECHO", [13, 10, 32, 255]] ++ encodeRequest [bs "PING"]] =
      ([Step.exec [bs "ECHO", [13, 10, 32, 255]]
          [Event.call (bs "echo") [[13, 10, 32, 255]] false, Event.send (bs "$4\r\n"),
            Event.send [13, 10, 32, 255], Event.send (bs "\r\n")] Outcome.ok,
        Step.exec [bs "PING"] [Event.call (bs "ping") [] false, Event.send (bs "+PONG\r\n")]
          Outcome.ok], Stop.closed) :=
  protocolHandler_two_requests_one_segment (demoRun (demoEnv none)) () () ()
    [bs "ECHO", [13, 10, 32, 255]] [bs "PING"] _ _ (by decide) (by decide) (by decide)
    (by decide) (by decide) rfl rfl

/-! ### The encoder of a streamed array -/

/-- `AppendInt` appends to its destination. -/
theorem appendInt_dst (dst : Bytes) (n : Int) : appendInt dst n = dst ++ appendInt [] n := by
  unfold appendInt
  split <;> simp

/-- When the loop over the items returns, it has sent the frames of every item, in order. -/
theorem writeReplies_flatten (items : List Reply) (h : (writeReplies items).2 = true) :
    (writeReplies items).1.flatten = (items.map (fun r => (writeReply r).1.flatten)).flatten ∧
      ∀ r ∈ items, (writeReply r).2 = true := by
  induction items with
  | nil => simp [writeReplies]
  | cons r rs ih =>
    rw [writeReplies] at h ⊢
    unfold Sent.andThen at h ⊢
    cases hr : (writeReply r).2 with
    | false => simp [hr] at h
    | true =>
      simp only [hr, if_true] at h ⊢
      obtain ⟨h1, h2⟩ := ih h
      refine ⟨by simp [h1], ?_⟩
      intro x hx
      simp only [List.mem_cons] at hx
      rcases hx with rfl | hx
      · exact hr
      · exact h2 x hx

/-- C11: a streamed reply whose size is the number of its items sends the same frames as the
non-nil array of the same items, whatever the items; and when every item is encoded (none is of
a type `writeReply` rejects), the bytes sent are `*<size>\r\n` followed by the bytes of each
item in order, nested arrays being encoded by the same function. -/
theorem stream_encodes_as_array (items : List Reply) :
    writeReply (Reply.stream (Int.ofNat items.length) items) = writeReply (Reply.multi items) ∧
    ((writeReplies items).2 = true →
      (writeReply (Reply.stream (Int.ofNat items.length) items)).1.flatten =
        specArrayBytes (Int.ofNat items.length)
          (items.map (fun r => (writeReply r).1.flatten)) ∧
      (writeReply (Reply.stream (Int.ofNat items.length) items)).2 = true) := by
  refine ⟨by rw [writeReply, writeReply], fun h => ⟨?_, ?_⟩⟩
  · rw [writeReply]
    have hb : bs "*" = [42] := by decide
    have hc : bs "\r\n" = crlf := by decide
    simp only [Sent.andThen, if_true, List.flatten_append, (writeReplies_flatten items h).1,
      writeMultibulkLength, specArrayBytes, hb, hc]
    rw [appendInt_dst]
    simp
  · rw [writeReply]
    simp [Sent.andThen, h]

/-- C11, at the items nil, `ab`, 5 and the nested array of 1. -/
theorem stream_encodes_as_array_witness :
    writeReply (Reply.stream 4
        [Reply.nilValue, Reply.bulk (some (bs "ab")), Reply.int 5, Reply.multi [Reply.int 1]]) =
      writeReply (Reply.multi
        [Reply.nilValue, Reply.bulk (some (bs "ab")), Reply.int 5, Reply.multi [Reply.int 1]]) ∧
    (writeReply (Reply.stream 4
        [Reply.nilValue, Reply.bulk (some (bs "ab")), Reply.int 5,
          Reply.multi [Reply.int 1]])).1.flatten =
      bs "*4\r\n$-1\r\n$2\r\nab\r\n:5\r\n*1\r\n:1\r\n" :=
  have h := stream_encodes_as_array
    [Reply.nilValue, Reply.bulk (some (bs "ab")), Reply.int 5, Reply.multi [Reply.int 1]]
  ⟨h.1, (h.2 (by decide)).1.trans (by decide)⟩

/-! ### Inline requests -/

/-- `ReadBytes('\n')` on a buffer that holds a line feed. -/
theorem readBytes_buffered (line rest : Bytes) (conn : List Bytes) (fuel : Nat)
    (h : ∀ d ∈ line, d ≠ 10) :
    Reader.readBytes 10 (fuel + 1) ⟨line ++ 10 :: rest, conn⟩ =
      (some (line ++ [10]), ⟨rest, conn⟩) := by
  have hr : Reader.readSlice 10 (bufSize + 1) ⟨line ++ 10 :: rest, conn⟩ =
      (line ++ [10], SliceEnd.found, ⟨rest, conn⟩) := by
    simp [Reader.readSlice, splitAtDelim_line line rest h]
  rw [Reader.readBytes, hr]

/-- A line and its line feed, cut two bytes before the end. -/
theorem take_line (line : Bytes) (h : line ≠ []) :
    (line ++ [10]).take ((line ++ [10]).length - 2) = line.dropLast := by
  rw [List.dropLast_eq_take]
  simp only [List.length_append, List.length_cons, List.length_nil]
  have hl : 0 < line.length := List.length_pos.mpr h
  rw [List.take_append_of_le_length (by omega)]
  congr 1

/-- One round of the read loop on a buffer that starts with an inline request line: the line
up to its line feed, less its last byte, is split at the spaces and executed. -/
theorem inline_step {σ : Type}
    (run : σ → List Bytes → σ × List Event × Outcome) (fuel : Nat) (s : σ)
    (line tail : Bytes) (conn : List Bytes)
    (hne : line ≠ []) (h42 : line.head? ≠ some 42) (h : ∀ d ∈ line, d ≠ 10) :
    protocolLoop run (fuel + 1) s ⟨line ++ 10 :: tail, conn⟩ =
      match run s (splitOnByte 32 line.dropLast) with
      | (s1, trace, Outcome.ok) =>
        (Step.exec (splitOnByte 32 line.dropLast) trace Outcome.ok ::
            (protocolLoop run fuel s1 ⟨tail, conn⟩).1,
          (protocolLoop run fuel s1 ⟨tail, conn⟩).2)
      | (_, trace, Outcome.failed msg) =>
        ([Step.exec (splitOnByte 32 line.dropLast) trace (Outcome.failed msg)], Stop.runFailed)
      | (_, trace, Outcome.panicked) =>
        ([Step.exec (splitOnByte 32 line.dropLast) trace Outcome.panicked], Stop.panicked) := by
  obtain ⟨b, t, rfl⟩ := List.exists_cons_of_ne_nil hne
  have hb : b ≠ 42 := by
    intro e
    apply h42
    simp [e]
  have hpeek : Reader.peek1 ⟨b :: t ++ 10 :: tail, conn⟩ =
      (some b, ⟨b :: t ++ 10 :: tail, conn⟩) := rfl
  have hlen : ¬ ((b :: t ++ [10]).length < 2) := by
    simp only [List.length_append, List.length_cons, List.length_nil]
    omega
  rw [protocolLoop]
  simp only [hpeek, ne_eq, hb, not_false_eq_true, if_true, readBytes_buffered _ _ _ _ h, hlen,
    if_false, take_line _ hne]

/-- C12 (evaluation): `processInline` cuts the last two bytes of the line it has read, whatever
they are. (a) `PING\r\n` is executed as `PING`. (b) `PING\n`, ended by a line feed alone, is
executed as `PIN` and answered with an unknown-command error; `ECHO ab\n` echoes `a`. (c) The
line `\n` alone makes `line[:len(line)-2]` panic. (d) In general, for a line in the buffer that
does not start with `*`, the argument vector is the line up to its line feed, less its last
byte, split at every space: the line without `\r\n` when it ends so, and the line without its
last byte when it ends in a line feed alone. -/
theorem processInline_cuts_two_bytes :
    protocolHandler (demoRun (demoEnv none)) () [bs "PING\r\n"] =
      ([Step.exec [bs "PING"] [Event.call (bs "ping") [] false, Event.send (bs "+PONG\r\n")]
          Outcome.ok], Stop.closed) ∧
    protocolHandler (demoRun (demoEnv none)) () [bs "PING\n"] =
      ([Step.exec [bs "PIN"] [Event.send (bs "-ERR unknown command 'PIN'\r\n")] Outcome.ok],
        Stop.closed) ∧
    protocolHandler (demoRun (demoEnv none)) () [bs "ECHO ab\n"] =
      ([Step.exec [bs "ECHO", bs "a"] [Event.call (bs "echo") [bs "a"] false,
          Event.send (bs "$1\r\n"), Event.send (bs "a"), Event.send (bs "\r\n")] Outcome.ok],
        Stop.closed) ∧
    protocolHandler (demoRun (demoEnv none)) () [bs "\n"] = ([], Stop.panicked) ∧
    (∀ (run : Unit → List Bytes → Unit × List Event × Outcome) (fuel : Nat) (line tail : Bytes)
        (conn : List Bytes), line ≠ [] → line.head? ≠ some 42 → (∀ d ∈ line, d ≠ 10) →
      (protocolLoop run (fuel + 1) () ⟨line ++ 10 :: tail, conn⟩).1.head? =
        some (Step.exec (splitOnByte 32 line.dropLast) (run () (splitOnByte 32 line.dropLast)).2.1
          (run () (splitOnByte 32 line.dropLast)).2.2)) := by
  refine ⟨by decide, by decide, by decide, by decide, ?_⟩
  intro run fuel line tail conn hne h42 h
  rw [inline_step run fuel () line tail conn hne h42 h]
  rcases hr : run () (splitOnByte 32 line.dropLast) with ⟨s1, trace, o⟩
  cases o <;> rfl

/-- An inline request line ended by `\r\n`, wholly in the buffer, is executed with the argument
vector that is the line without `\r\n`, split at every space; when `runCommand` returns no
error the loop goes on with the bytes after the line. -/
theorem protocolLoop_inline_crlf {σ : Type}
    (run : σ → List Bytes → σ × List Event × Outcome) (fuel : Nat) (s s1 : σ)
    (body tail : Bytes) (conn : List Bytes) (trace : List Event)
    (h42 : body.head? ≠ some 42) (h : ∀ d ∈ body, d ≠ 10)
    (hrun : run s (splitOnByte 32 body) = (s1, trace, Outcome.ok)) :
    protocolLoop run (fuel + 1) s ⟨body ++ 13 :: 10 :: tail, conn⟩ =
      (Step.exec (splitOnByte 32 body) trace Outcome.ok ::
          (protocolLoop run fuel s1 ⟨tail, conn⟩).1,
        (protocolLoop run fuel s1 ⟨tail, conn⟩).2) := by
  have hb : body ++ 13 :: 10 :: tail = (body ++ [13]) ++ 10 :: tail := by simp
  have hd : (body ++ [13]).dropLast = body := List.dropLast_concat
  have h1 : (body ++ [13]).head? ≠ some 42 := by
    cases body with
    | nil => decide
    | cons x t => simpa using h42
  have h2 : ∀ d ∈ body ++ [13], d ≠ 10 := by
    intro d hd
    simp only [List.mem_append, List.mem_singleton] at hd
    rcases hd with hd | hd
    · exact h d hd
    · subst hd; decide
  rw [hb, inline_step run fuel s (body ++ [13]) tail conn (by simp) h1 h2, hd, hrun]

/-- The inline request `ECHO hello\r\n`, followed by `PING\r\n`. -/
theorem protocolLoop_inline_crlf_witness :
    protocolLoop (demoRun (demoEnv none)) (0 + 1) ()
        ⟨bs "ECHO hello" ++ 13 :: 10 :: bs "PING\r\n", []⟩ =
      (Step.exec (splitOnByte 32 (bs "ECHO hello"))
          [Event.call (bs "echo") [bs "hello"] false, Event.send (bs "$5\r\n"),
            Event.send (bs "hello"), Event.send (bs "\r\n")] Outcome.ok ::
          (protocolLoop (demoRun (demoEnv none)) 0 () ⟨bs "PING\r\n", []⟩).1,
        (protocolLoop (demoRun (demoEnv none)) 0 () ⟨bs "PING\r\n", []⟩).2) :=
  protocolLoop_inline_crlf (demoRun (demoEnv none)) 0 () () (bs "ECHO hello") (bs "PING\r\n") []
    _ (by decide) (by decide) (by decide)

/-! ### Protocol errors -/

/-- The returns of `readLength`: it sends no frame; or it sends the protocol error of a length
that is not an integer and returns an error; or it sends one of its three other protocol errors
and returns length 0 and no error. -/
theorem readLength_returns (pfx : UInt8) (r : Reader) :
    (readLength pfx r).1 = [] ∨
    ((readLength pfx r).1 = writeProtocolError (bs "length is not a valid integer") ∧
      (readLength pfx r).2.1 = none) ∨
    (((readLength pfx r).1 = writeProtocolError (bs "invalid length") ∨
        (readLength pfx r).1 = writeProtocolError (bs "length line too long") ∨
        (readLength pfx r).1 = writeProtocolError (bs "missing length")) ∧
      (readLength pfx r).2.1 = some 0) := by
  unfold readLength
  split
  · exact Or.inl rfl
  · split
    · exact Or.inr (Or.inr ⟨Or.inl rfl, rfl⟩)
    · split
      · exact Or.inl rfl
      · split
        · exact Or.inr (Or.inr ⟨Or.inr (Or.inl rfl), rfl⟩)
        · split
          · exact Or.inr (Or.inr ⟨Or.inr (Or.inr rfl), rfl⟩)
          · split
            · exact Or.inr (Or.inl ⟨rfl, rfl⟩)
            · exact Or.inl rfl

/-- C13 (evaluation): of the five protocol errors only the one of a length that is not an
integer ends the session. (a) `readLength` returns length 0 and a nil error after `invalid
length`, `length line too long` and `missing length`, and `runCommand` returns a nil error
after `missing command`. (b) After `*0\r\n` (missing command) the `PING` that follows is
executed. (c) After `*1\r\n$\r\n` (missing length) an empty argument is executed as a command
and then the `PING` that follows. (d) After `*1\r\n:10\r\n` (wrong prefix byte) the bytes that
follow are parsed as requests and the `PING` is executed. (e) After `*1\r\n$abc\r\n` (not an
integer) the handler returns and the `PING` that follows is not parsed. -/
theorem protocol_error_keeps_session :
    (∀ (pfx : UInt8) (r : Reader) (msg : Bytes),
      (msg = bs "invalid length" ∨ msg = bs "length line too long" ∨
        msg = bs "missing length") →
      (readLength pfx r).1 = writeProtocolError msg → (readLength pfx r).2.1 = some 0) ∧
    (∀ (env : Env) (spare : List Bytes),
      runCommand env [] spare =
        ([Event.send (bs "-ERR Protocol error: missing command\r\n")], Outcome.ok)) ∧
    protocolHandler (demoRun (demoEnv none)) () [bs "*0\r\nPING\r\n"] =
      ([Step.exec [] [Event.send (bs "-ERR Protocol error: missing command\r\n")] Outcome.ok,
        Step.exec [bs "PING"] [Event.call (bs "ping") [] false, Event.send (bs "+PONG\r\n")]
          Outcome.ok], Stop.closed) ∧
    protocolHandler (demoRun (demoEnv none)) () [bs "*1\r\n$\r\n\r\nPING\r\n"] =
      ([Step.send (bs "-ERR Protocol error: missing length\r\n"),
        Step.exec [[]] [Event.send (bs "-ERR unknown command ''\r\n")] Outcome.ok,
        Step.exec [bs "PING"] [Event.call (bs "ping") [] false, Event.send (bs "+PONG\r\n")]
          Outcome.ok], Stop.closed) ∧
    protocolHandler (demoRun (demoEnv none)) () [bs "*1\r\n:10\r\nPING\r\n"] =
      ([Step.send (bs "-ERR Protocol error: invalid length\r\n"),
        Step.exec [[]] [Event.send (bs "-ERR unknown command ''\r\n")] Outcome.ok,
        Step.exec [[]] [Event.send (bs "-ERR unknown command ''\r\n")] Outcome.ok,
        Step.exec [bs "PING"] [Event.call (bs "ping") [] false, Event.send (bs "+PONG\r\n")]
          Outcome.ok], Stop.closed) ∧
    protocolHandler (demoRun (demoEnv none)) () [bs "*1\r\n$abc\r\nPING\r\n"] =
      ([Step.send (bs "-ERR Protocol error: length is not a valid integer\r\n")],
        Stop.closed) := by
  refine ⟨?_, ?_, by decide, by decide, by decide, by decide⟩
  · intro pfx r msg hmsg hfr
    rcases readLength_returns pfx r with h | ⟨h, _⟩ | ⟨_, h⟩
    · rw [h] at hfr
      rcases hmsg with e | e | e <;> subst e <;> exact absurd hfr (by decide)
    · rw [h] at hfr
      rcases hmsg with e | e | e <;> subst e <;> exact absurd hfr (by decide)
    · exact h
  · intro env spare
    rfl

/-! ### Command lookup -/

/-- In a list of descriptors with distinct names, the search for the name of a descriptor of
the list finds that descriptor. -/
theorem find_name (l : List cmdDesc) (hn : (l.map cmdDesc.name).Nodup) (d : cmdDesc)
    (hd : d ∈ l) : l.find? (fun c => c.name == d.name) = some d := by
  induction l with
  | nil => cases hd
  | cons a t ih =>
    rw [List.map_cons, List.nodup_cons] at hn
    rcases List.mem_cons.mp hd with e | hmem
    · subst e
      simp
    · have hne : a.name ≠ d.name := by
        intro e
        apply hn.1
        rw [e]
        exact List.mem_map_of_mem _ hmem
      rw [List.find?_cons_of_neg _ (by simpa using hne)]
      exact ih hn.2 hmem

/-- The map `commands` holds every descriptor of a table with distinct names under its name. -/
theorem commands_of_mem (table : List cmdDesc) (hn : (table.map cmdDesc.name).Nodup)
    (d : cmdDesc) (hd : d ∈ table) : commands table d.name = some d := by
  unfold commands
  apply find_name
  · rw [List.map_reverse]
    exact List.nodup_reverse.mpr hn
  · exact List.mem_reverse.mpr hd

/-- The names of `commandList` are distinct. -/
theorem commandList_names_nodup (h : String → cmdFunc) (zkeys : List Bytes → List Bytes) :
    ((commandList h zkeys).map cmdDesc.name).Nodup := by
  have e : (commandList h zkeys).map cmdDesc.name =
      (commandList (fun _ _ _ => none) (fun a => a)).map cmdDesc.name := rfl
  rw [e]
  decide

/-- The map `commands` has no entry under a name that no descriptor bears. -/
theorem commands_none (table : List cmdDesc) (name : Bytes)
    (h : ∀ d ∈ table, d.name ≠ name) : commands table name = none := by
  unfold commands
  rw [List.find?_eq_none]
  intro c hc
  have := h c (List.mem_reverse.mp hc)
  simpa using this

/-- C14: with the command table of `commands.go` and a lower-casing that is ASCII lower-casing
on ASCII names: (a) for every descriptor `d` of the table, every ASCII name `w` whose
lower-casing is the name of `d` (any spelling of it in upper and lower case) and every
argument vector, the map `commands` gives `d` for the lower-cased `w`, and `runCommand` on the
request `w` with these arguments works with `d`: it tests the arity of `d` and answers a wrong
count with the error that names `w`; else it takes the locks of `d` and calls the handler of
`d` with the arguments, and a panic of the key extraction or of the handler is a panic of
`runCommand`; when the handler returns a value, the commit, the unlocking and the reply are
those of `d` for that value. (b) For every request whose first argument, lower-cased, is no name
of the table, `runCommand` sends the one frame `-ERR unknown command '<name>'\r\n` and does
nothing else (no lock, no handler call, no commit), and returns a nil error, so the read loop
goes on. -/
theorem lookup_by_lowercased_name (env : Env) (h : String → cmdFunc)
    (zkeys : List Bytes → List Bytes)
    (htable : env.table = commandList h zkeys)
    (hlower : ∀ w : Bytes, (∀ x ∈ w, x < 128) → env.toLower w = asciiLower w) :
    (∀ d ∈ env.table, ∀ w : Bytes, (∀ x ∈ w, x < 128) → asciiLower w = d.name →
      commands env.table (env.toLower w) = some d ∧
      ∀ rest spare : List Bytes,
        (arityRejects d.arity (w :: rest).length = true →
          runCommand env (w :: rest) spare =
            ([Event.send (bs "-ERR wrong number of arguments for '" ++ w ++ bs "' command\r\n")],
              Outcome.ok)) ∧
        (arityRejects d.arity (w :: rest).length = false →
          (lockKeys d rest spare = none →
            runCommand env (w :: rest) spare = ([], Outcome.panicked)) ∧
          ∀ locks : List Event, lockKeys d rest spare = some locks →
            (d.function rest d.writes = none →
              runCommand env (w :: rest) spare =
                (locks ++ [Event.call d.name rest d.writes], Outcome.panicked)) ∧
            ∀ res : Reply, d.function rest d.writes = some res →
              runCommand env (w :: rest) spare =
                match (if d.writes && !res.isError then env.dbWrite rest else none) with
                | some msg =>
                  (locks ++ [Event.call d.name rest d.writes] ++
                      (if d.writes && !res.isError then [Event.commit] else []) ++
                      sends (writeError (bs "data write error: " ++ msg)), Outcome.failed msg)
                | none =>
                  match unlockKeys d rest spare with
                  | none => (locks ++ [Event.call d.name rest d.writes] ++
                      (if d.writes && !res.isError then [Event.commit] else []),
                      Outcome.panicked)
                  | some unlocks =>
                    (locks ++ [Event.call d.name rest d.writes] ++
                        (if d.writes && !res.isError then [Event.commit] else []) ++ unlocks ++
                        sends (writeReply res).1,
                      if (writeReply res).2 then Outcome.ok else Outcome.panicked))) ∧
    (∀ (name : Bytes) (rest spare : List Bytes),
      (∀ d ∈ env.table, d.name ≠ env.toLower name) →
      runCommand env (name :: rest) spare =
        ([Event.send (bs "-ERR unknown command '" ++ name ++ bs "'\r\n")], Outcome.ok)) := by
  constructor
  · intro d hd w hw hwd
    have hc : commands env.table (env.toLower w) = some d := by
      rw [hlower w hw, hwd]
      apply commands_of_mem _ _ d hd
      rw [htable]
      exact commandList_names_nodup h zkeys
    refine ⟨hc, ?_⟩
    intro rest spare
    refine ⟨?_, ?_⟩
    · intro ha
      simp only [runCommand, hc, ha, if_true]
      simp [sends, writeError, crlf, bs]
    · intro ha
      refine ⟨?_, ?_⟩
      · intro hl
        simp only [runCommand, hc, ha, hl]
        rfl
      · intro locks hl
        refine ⟨?_, ?_⟩
        · intro hf
          simp only [runCommand, hc, ha, hl, hf]
          rfl
        · intro res hf
          simp only [runCommand, hc, ha, hl, hf]
          rfl
  · intro name rest spare hno
    have hnone := commands_none env.table (env.toLower name) hno
    simp [runCommand, hnone, sends, writeError, crlf, bs]

/-- C14 at the requests `PiNg`, `eCHO hi`, `Echo a b` and `FOO x`, all of ASCII characters: the
first two are dispatched to the descriptors of `ping` and `echo`, the third is rejected by the
arity of `echo` under the name as typed, and the last is an unknown command. -/
theorem lookup_by_lowercased_name_witness :
    runCommand (demoEnv none) [bs "PiNg"] [] =
      ([Event.call (bs "ping") [] false, Event.send (bs "+PONG\r\n")], Outcome.ok) ∧
    runCommand (demoEnv none) [bs "eCHO", bs "hi"] [] =
      ([Event.call (bs "echo") [bs "hi"] false, Event.send (bs "$2\r\n"), Event.send (bs "hi"),
        Event.send (bs "\r\n")], Outcome.ok) ∧
    runCommand (demoEnv none) [bs "Echo", bs "a", bs "b"] [] =
      ([Event.send (bs "-ERR wrong number of arguments for 'Echo' command\r\n")],
        Outcome.ok) ∧
    runCommand (demoEnv none) [bs "FOO", bs "x"] [] =
      ([Event.send (bs "-ERR unknown command 'FOO'\r\n")], Outcome.ok) :=
  have h := lookup_by_lowercased_name (demoEnv none) (fun _ _ _ => some ReplyOK) (fun a => a)
    rfl (fun _ _ => rfl)
  have hping : (⟨bs "ping", Ping, 0, false, (-1), 0, 0, none⟩ : cmdDesc) ∈
      (demoEnv none).table :=
    List.mem_of_find?_eq_some
      (show (demoEnv none).table.find? (fun c => c.name == bs "ping") = some _ from rfl)
  have hecho : (⟨bs "echo", Echo, 1, false, (-1), 0, 0, none⟩ : cmdDesc) ∈
      (demoEnv none).table :=
    List.mem_of_find?_eq_some
      (show (demoEnv none).table.find? (fun c => c.name == bs "echo") = some _ from rfl)
  ⟨(((h.1 _ hping (bs "PiNg") (by decide) (by decide)).2 [] []).2 (by decide)).2 [] rfl
      |>.2 ReplyPONG rfl,
    (((h.1 _ hecho (bs "eCHO") (by decide) (by decide)).2 [bs "hi"] []).2 (by decide)).2 [] rfl
      |>.2 (Reply.bulk (some (bs "hi"))) rfl,
    ((h.1 _ hecho (bs "Echo") (by decide) (by decide)).2 [bs "a", bs "b"] []).1 (by decide),
    h.2 (bs "FOO") [bs "x"] [] (by decide)⟩

/-! ### The handlers `Del` and `Type` -/

/-- `Del` of a key that is not empty and whose meta value begins with the type byte `t`, with
any keys after it, in terms of `del`: a panic of `del` is a panic of `Del`, else the loop goes
on with the next keys, the count 1 and the deletions staged. -/
theorem Del_first (db : DB) (key rest : Bytes) (more : List Bytes) (t : UInt8)
    (hk : key ≠ []) (h : db (metaKey key) = GetResult.value (t :: rest)) :
    Del db (key :: more) =
      match del key t with
      | none => (none, [])
      | some ops => delLoop db more 1 (ops ++ [BatchOp.delete (metaKey key)]) := by
  have hlen : ¬ (key.length < 1) := by
    have := List.length_pos.mpr hk
    omega
  have hb : bufMetaKey [0] key = metaKey key := rfl
  have hd : (metaKey key).drop 1 = key := rfl
  simp only [Del, hlen, if_false, delLoop, hb, delKey, h, hd]
  cases hdel : del key t with
  | none => rfl
  | some ops => rfl

/-- C15 (evaluation): `del` has no case for the type byte of a list, and `Del` cannot take an
empty first key. (a) The constants are 7 to 11. (b) `DEL` of a key whose meta value begins with
the list byte 9 panics (`unknown key type` in `del`; for the empty key already in `make`): it
returns nothing and stages nothing, whatever keys follow. (c) `DEL` with an empty first key
panics in `make([]byte, 1, len(args[0]))`, whatever the store holds. (d) For a key that is not
empty and one of the four other type bytes `DEL` calls the deletion of that type, stages the
deletion of the meta entry and returns 1. (e) A key that is not empty and has no meta entry
stages nothing and is not counted. (f) `DEL l` on a store that holds the list `l`; `DEL h m`
with the hash `h` and no key `m`; and `DEL` of the empty key on a store that holds it as a
string. -/
theorem Del_list_key_panics :
    (StringLengthValue = 7 ∧ HashLengthValue = 8 ∧ ListLengthValue = 9 ∧ SetCardValue = 10 ∧
      ZCardValue = 11) ∧
    (∀ (db : DB) (key rest : Bytes) (more : List Bytes),
      db (metaKey key) = GetResult.value (9 :: rest) → Del db (key :: more) = (none, [])) ∧
    (∀ (db : DB) (more : List Bytes), Del db ([] :: more) = (none, [])) ∧
    (∀ (db : DB) (key rest : Bytes), key ≠ [] →
      (db (metaKey key) = GetResult.value (7 :: rest) →
        Del db [key] =
          (some (Reply.int 1), [BatchOp.delString key, BatchOp.delete (metaKey key)])) ∧
      (db (metaKey key) = GetResult.value (8 :: rest) →
        Del db [key] =
          (some (Reply.int 1), [BatchOp.delHash key, BatchOp.delete (metaKey key)])) ∧
      (db (metaKey key) = GetResult.value (10 :: rest) →
        Del db [key] =
          (some (Reply.int 1), [BatchOp.delSet key, BatchOp.delete (metaKey key)])) ∧
      (db (metaKey key) = GetResult.value (11 :: rest) →
        Del db [key] =
          (some (Reply.int 1), [BatchOp.delZset key, BatchOp.delete (metaKey key)]))) ∧
    (∀ (db : DB) (key : Bytes), key ≠ [] → db (metaKey key) = GetResult.missing →
      Del db [key] = (some (Reply.int 0), [])) ∧
    Del (fun k => if k = metaKey (bs "l") then GetResult.value [9, 0] else GetResult.missing)
      [bs "l"] = (none, []) ∧
    Del (fun k => if k = metaKey (bs "h") then GetResult.value [8, 0] else GetResult.missing)
      [bs "h", bs "m"] =
        (some (Reply.int 1), [BatchOp.delHash (bs "h"), BatchOp.delete (metaKey (bs "h"))]) ∧
    Del (fun k => if k = metaKey [] then GetResult.value [7, 0] else GetResult.missing)
      [[]] = (none, []) := by
  refine ⟨by decide, ?_, ?_, ?_, ?_, by rfl, by rfl, by rfl⟩
  · intro db key rest more h
    by_cases hk : key = []
    · subst hk
      rfl
    · rw [Del_first db key rest more 9 hk h]
      rfl
  · intro db more
    rfl
  · intro db key rest hk
    refine ⟨?_, ?_, ?_, ?_⟩ <;> intro h
    · rw [Del_first db key rest [] 7 hk h]; rfl
    · rw [Del_first db key rest [] 8 hk h]; rfl
    · rw [Del_first db key rest [] 10 hk h]; rfl
    · rw [Del_first db key rest [] 11 hk h]; rfl
  · intro db key hk h
    have hlen : ¬ (key.length < 1) := by
      have := List.length_pos.mpr hk
      omega
    have hb : bufMetaKey [0] key = metaKey key := rfl
    simp only [Del, hlen, if_false, delLoop, hb, delKey, h]
    rfl

/-- C16: the constants `StringLengthValue` .. `ZCardValue` are 7 .. 11; `TYPE` answers `none`
exactly when the store holds no meta entry for the user key; and when the meta value starts
with one of the five bytes it answers the name of that type. -/
theorem Type_reply (db : DB) (k : Bytes) (more : List Bytes) :
    (StringLengthValue = 7 ∧ HashLengthValue = 8 ∧ ListLengthValue = 9 ∧ SetCardValue = 10 ∧
      ZCardValue = 11) ∧
    («Type» db (k :: more) = some (Reply.str (bs "none")) ↔
      db (metaKey k) = GetResult.missing) ∧
    (∀ rest, db (metaKey k) = GetResult.value (7 :: rest) →
      «Type» db (k :: more) = some (Reply.str (bs "string"))) ∧
    (∀ rest, db (metaKey k) = GetResult.value (8 :: rest) →
      «Type» db (k :: more) = some (Reply.str (bs "hash"))) ∧
    (∀ rest, db (metaKey k) = GetResult.value (9 :: rest) →
      «Type» db (k :: more) = some (Reply.str (bs "list"))) ∧
    (∀ rest, db (metaKey k) = GetResult.value (10 :: rest) →
      «Type» db (k :: more) = some (Reply.str (bs "set"))) ∧
    (∀ rest, db (metaKey k) = GetResult.value (11 :: rest) →
      «Type» db (k :: more) = some (Reply.str (bs "zset"))) := by
  refine ⟨by decide, ?_, ?_, ?_, ?_, ?_, ?_⟩
  · have n1 : bs "string" ≠ bs "none" := by decide
    have n2 : bs "hash" ≠ bs "none" := by decide
    have n3 : bs "list" ≠ bs "none" := by decide
    have n4 : bs "set" ≠ bs "none" := by decide
    have n5 : bs "zset" ≠ bs "none" := by decide
    unfold «Type»
    cases hg : db (metaKey k) with
    | failed msg => simp [hg]
    | missing => simp [hg]
    | value res =>
      cases res with
      | nil => simp [hg, InvalidDataError]
      | cons t rest =>
        simp only [hg, reduceCtorEq, iff_false]
        split_ifs <;> simp [n1, n2, n3, n4, n5]
  · intro rest h
    simp only [«Type», h]
    rfl
  · intro rest h
    simp only [«Type», h]
    rfl
  · intro rest h
    simp only [«Type», h]
    rfl
  · intro rest h
    simp only [«Type», h]
    rfl
  · intro rest h
    simp only [«Type», h]
    rfl

/-! ### The handler `Keys` -/

/-- The iterator of `Keys` starts at the first key of a store whose keys are not empty. -/
theorem seek_all (store : List Bytes) (h : ∀ k ∈ store, k ≠ []) :
    seek store [MetaKey] = store := by
  cases store with
  | nil => rfl
  | cons k t =>
    have hk : k ≠ [] := h k (List.mem_cons_self _ _)
    obtain ⟨b, r, rfl⟩ := List.exists_cons_of_ne_nil hk
    have hb : bytesLess (b :: r) [MetaKey] = false := by
      have h0 : ¬ (b < MetaKey) := by
        show ¬ (b < 0)
        intro hlt
        have h1 := UInt8.lt_def.mp hlt
        rw [BitVec.lt_def] at h1
        simp at h1
      cases r <;> simp [bytesLess, h0]
    simp [seek, List.dropWhile, hb]

/-- The loop of `Keys` over the meta entries of non-empty user keys, followed by keys of other
families: the user keys the matcher accepts are added to the keys found, in order. -/
theorem keysLoop_metas (glob : Bytes → Bytes → Bool) (pattern : Bytes) (others : List Bytes)
    (ho : ∀ k ∈ others, k.head? ≠ some MetaKey) (users : List Bytes) :
    ∀ (acc : List Reply), (∀ u ∈ users, u ≠ []) →
    keysLoop (fun p n => some (glob p n)) pattern (users.map metaKey ++ others) acc =
      Reply.multi (acc ++ ((users.filter (glob pattern)).map (fun u => Reply.bulk (some u)))) := by
  induction users with
  | nil =>
    intro acc _
    cases others with
    | nil => simp [keysLoop]
    | cons k t =>
      have hk := ho k (List.mem_cons_self _ _)
      simp [keysLoop, hk]
  | cons u t ih =>
    intro acc hu
    have hne : u ≠ [] := hu u (List.mem_cons_self _ _)
    obtain ⟨b, r, rfl⟩ := List.exists_cons_of_ne_nil hne
    have ht := fun a => ih a (fun x hx => hu x (List.mem_cons_of_mem _ hx))
    have hcond : ¬ ((metaKey (b :: r)).length < 2 ∨ (metaKey (b :: r)).head? ≠ some MetaKey) := by
      simp [metaKey]
    have hd : (metaKey (b :: r)).drop 1 = b :: r := rfl
    rw [List.map_cons, List.cons_append, keysLoop]
    simp only [hcond, if_false, hd]
    rw [ht]
    by_cases hg : glob pattern (b :: r) = true
    · simp [hg, List.filter_cons]
    · simp [hg, List.filter_cons]

/-- C18 (evaluation): the loop of `Keys` ends at the first key shorter than two bytes, which is
the meta entry of the empty user key, the first key of the store. With a matcher that accepts
every name (as the pattern `*` does), on the store with the meta entries of the user keys
`a` and `b` and the string payload of `a`, `KEYS *` returns `a` and `b`; once the store also
holds the meta entry of the empty key, `KEYS *` returns no key at all. -/
theorem Keys_stops_at_empty_key :
    Keys (fun _ _ => some true) [metaKey (bs "a"), metaKey (bs "b"), StringKey :: bs "a"]
        [bs "*"] =
      some (Reply.multi [Reply.bulk (some (bs "a")), Reply.bulk (some (bs "b"))]) ∧
    seek [metaKey [], metaKey (bs "a"), metaKey (bs "b"), StringKey :: bs "a"] [MetaKey] =
      [metaKey [], metaKey (bs "a"), metaKey (bs "b"), StringKey :: bs "a"] ∧
    Keys (fun _ _ => some true)
        [metaKey [], metaKey (bs "a"), metaKey (bs "b"), StringKey :: bs "a"] [bs "*"] =
      some (Reply.multi []) := by
  refine ⟨by rfl, by decide, by rfl⟩

/-- On a store that holds the meta entries of the user keys `users`, none of them empty, and
after them keys of other families, and with a matcher that accepts the pattern, `Keys` returns
the user keys the matcher accepts for the pattern, each as a bulk string without the tag byte,
in the order of the store. -/
theorem Keys_nonempty_user_keys (glob : Bytes → Bytes → Bool) (users others : List Bytes)
    (pattern : Bytes) (more : List Bytes)
    (hu : ∀ u ∈ users, u ≠ [])
    (ho : ∀ k ∈ others, k ≠ [] ∧ k.head? ≠ some MetaKey) :
    Keys (fun p n => some (glob p n)) (users.map metaKey ++ others) (pattern :: more) =
      some (Reply.multi ((users.filter (glob pattern)).map (fun u => Reply.bulk (some u)))) := by
  have hs : seek (users.map metaKey ++ others) [MetaKey] = users.map metaKey ++ others := by
    apply seek_all
    intro k hk
    rcases List.mem_append.mp hk with h | h
    · obtain ⟨u, _, rfl⟩ := List.mem_map.mp h
      simp [metaKey]
    · exact (ho k h).1
  simp only [Keys, hs]
  rw [keysLoop_metas glob pattern others (fun k hk => (ho k hk).2) users [] hu]
  simp

/-- The store with the keys `a`, `ab` and `b` and the payload of a string, and the matcher that
accepts the names that begin with the first byte of the pattern. -/
theorem Keys_nonempty_user_keys_witness :
    Keys (fun p n => some ((fun p n => p.head? == n.head?) p n))
        ([bs "a", bs "ab", bs "b"].map metaKey ++ [StringKey :: bs "a"]) (bs "a" :: []) =
      some (Reply.multi
        (([bs "a", bs "ab", bs "b"].filter ((fun p n => p.head? == n.head?) (bs "a"))).map
          (fun u => Reply.bulk (some u)))) :=
  Keys_nonempty_user_keys (fun p n => p.head? == n.head?) [bs "a", bs "ab", bs "b"]
    [StringKey :: bs "a"] (bs "a") [] (by decide) (by decide)

/-! ### Range normalisation -/

/-- A number `atoi` returns is in the range of a 64-bit integer. -/
theorem atoi_range (b : Bytes) (v : Int) (h : atoi b = some v) :
    -(2 ^ 63) ≤ v ∧ v < 2 ^ 63 := by
  unfold atoi at h
  simp only at h
  split_ifs at h
  all_goals
    simp only [Option.some.injEq, reduceCtorEq] at h
    rw [← h]
    simp only [Int.ofNat_eq_coe]
    omega

/-- What `parseRange` returns on two arguments that are integers, for a length in the range
of a non-negative `int64`. -/
theorem parseRange_value (a0 a1 : Bytes) (more : List Bytes) (start stop L : Int)
    (h0 : parseInt64 a0 = some start) (h1 : parseInt64 a1 = some stop)
    (hL : 0 ≤ L) (hL2 : L < 2 ^ 63) :
    parseRange (a0 :: a1 :: more) L =
      RangeResult.range (if start < 0 then start + L else start)
        (if stop < 0 then stop + L else if stop > L then L - 1 else stop) := by
  have r0 := atoi_range a0 start h0
  have r1 := atoi_range a1 stop h1
  simp only [parseRange, h0, h1]
  by_cases hs : start < 0 <;> by_cases he : stop < 0
  · rw [wrapInt_of_range (start + L) (by omega) (by omega), wrapInt_of_range (stop + L) (by omega) (by omega)]
    have : ¬ (stop + L > L) := by omega
    simp [hs, he, this]
  · rw [wrapInt_of_range (start + L) (by omega) (by omega), wrapInt_of_range (L - 1) (by omega) (by omega)]
    simp [hs, he]
  · rw [wrapInt_of_range (stop + L) (by omega) (by omega)]
    have : ¬ (stop + L > L) := by omega
    simp [hs, he, this]
  · rw [wrapInt_of_range (L - 1) (by omega) (by omega)]
    simp [hs, he]

/-- C17 (evaluation): `parseRange` clamps the end only when it is above the length, so an end
equal to the length `L` is returned as it is: for integer arguments and `0 ≤ L` the returned
end is at most `L`, and it is `L` exactly when the end argument is `L`. With length 5 the end
5 stays 5, while the end 6 becomes 4. -/
theorem parseRange_end_not_clamped :
    (∀ (a0 a1 : Bytes) (more : List Bytes) (start stop L : Int),
      parseInt64 a0 = some start → parseInt64 a1 = some stop → 0 ≤ L → L < 2 ^ 63 →
      ∃ s e, parseRange (a0 :: a1 :: more) L = RangeResult.range s e ∧ e ≤ L ∧
        (e = L ↔ stop = L)) ∧
    parseRange [bs "0", bs "5"] 5 = RangeResult.range 0 5 ∧
    parseRange [bs "0", bs "6"] 5 = RangeResult.range 0 4 ∧
    parseRange [bs "0", bs "-1"] 5 = RangeResult.range 0 4 := by
  refine ⟨?_, by decide, by decide, by decide⟩
  intro a0 a1 more start stop L h0 h1 hL hL2
  refine ⟨_, _, parseRange_value a0 a1 more start stop L h0 h1 hL hL2, ?_, ?_⟩
  · split_ifs <;> omega
  · split_ifs <;> omega

/-- C20 (amended): for integer arguments and a length `L` with `0 ≤ L`, the start index
`parseRange` returns is the start argument when that is not negative, and the start argument
plus `L` when it is negative; it is not negative exactly when the start argument is `-L` or
more; and then, when the returned range is not empty by the rule (start at most end and
start below `L`), the returned start lies in `[0, L-1]`. -/
theorem parseRange_start (a0 a1 : Bytes) (more : List Bytes) (start stop L : Int)
    (h0 : parseInt64 a0 = some start) (h1 : parseInt64 a1 = some stop)
    (hL : 0 ≤ L) (hL2 : L < 2 ^ 63) :
    ∃ s e, parseRange (a0 :: a1 :: more) L = RangeResult.range s e ∧
      s = (if start < 0 then start + L else start) ∧
      (0 ≤ s ↔ -L ≤ start) ∧
      (-L ≤ start → s ≤ e → s < L → 0 ≤ s ∧ s ≤ L - 1) := by
  refine ⟨_, _, parseRange_value a0 a1 more start stop L h0 h1 hL hL2, rfl, ?_, ?_⟩
  · split_ifs <;> omega
  · split_ifs <;> omega

/-- C20 (amended), at start -2, end -1 and length 5: the range returned is 3 .. 4. -/
theorem parseRange_start_witness :
    ∃ s e, parseRange [bs "-2", bs "-1"] 5 = RangeResult.range s e ∧
      s = (if (-2 : Int) < 0 then -2 + 5 else -2) ∧
      (0 ≤ s ↔ -5 ≤ (-2 : Int)) ∧
      (-5 ≤ (-2 : Int) → s ≤ e → s < 5 → 0 ≤ s ∧ s ≤ 5 - 1) :=
  parseRange_start (bs "-2") (bs "-1") [] (-2) (-1) 5 (by decide) (by decide) (by decide)
    (by decide)

/-- C20 fails as stated: with length 5, start -10 and end -1 the range returned is -5 .. 4,
which is not empty by the rule (start at most end, start below the length) and has a negative
start. -/
theorem parseRange_start_counterexample :
    parseRange [bs "-10", bs "-1"] 5 = RangeResult.range (-5) 4 ∧
    ((-5 : Int) ≤ 4 ∧ (-5 : Int) < 5) ∧ ¬ (0 ≤ (-5 : Int)) := by
  decide

/-! ### The queue task -/

/-- From every state of its loop, with fuel for twice the frames to come and the frames
queued, `responseQueue` ends and has handed to `out` what it had handed over before, then the
frames queued, then the frames to come. -/
theorem responseQueue_order (choose : Nat → Bool) (fuel : Nat) :
    ∀ (round : Nat) (st : QueueState), 2 * st.incoming.length + st.queue.length < fuel →
    ∃ size, responseQueue choose fuel round st =
      some (st.out ++ st.queue ++ st.incoming, size) := by
  induction fuel with
  | zero => intro round st h; omega
  | succ n ih =>
    intro round st h
    obtain ⟨incoming, queue, size, out⟩ := st
    simp only at h
    cases queue with
    | nil =>
      cases incoming with
      | nil => exact ⟨size, by simp [responseQueue]⟩
      | cons v rest =>
        simp only [List.length_cons, List.length_nil] at h
        obtain ⟨sz, hsz⟩ := ih round
          ⟨rest, [v], wrapInt (size + Int.ofNat v.length), out⟩
          (by simp only [List.length_cons, List.length_nil]; omega)
        refine ⟨sz, ?_⟩
        simp only [responseQueue]
        rw [hsz]
        simp
    | cons q qs =>
      simp only [List.length_cons] at h
      by_cases hc : choose round = true
      · obtain ⟨sz, hsz⟩ := ih (round + 1)
          ⟨incoming, qs, wrapInt (size - Int.ofNat q.length), out ++ [q]⟩
          (by simp only; omega)
        refine ⟨sz, ?_⟩
        simp only [responseQueue, hc, if_true]
        rw [hsz]
        simp
      · cases incoming with
        | nil => exact ⟨size, by simp [responseQueue, hc]⟩
        | cons v rest =>
          simp only [List.length_cons] at h
          obtain ⟨sz, hsz⟩ := ih (round + 1)
            ⟨rest, q :: qs ++ [v], wrapInt (size + Int.ofNat v.length), out⟩
            (by simp only [List.length_cons, List.length_append, List.length_nil]; omega)
          refine ⟨sz, ?_⟩
          simp only [responseQueue, hc, Bool.false_eq_true, if_false]
          rw [hsz]
          simp

/-- C19: whatever frames the session sends on its outbound channel before closing it, and
whichever way the queue task interleaves receiving and forwarding, the task ends and the frames
it has handed to the writer are exactly the frames received, in the same order. -/
theorem responseQueue_preserves_order (choose : Nat → Bool) (frames : List Bytes) :
    (runResponseQueue choose frames).map Prod.fst = some frames := by
  obtain ⟨sz, h⟩ := responseQueue_order choose (2 * frames.length + 1) 0 ⟨frames, [], 0, []⟩
    (by simp)
  simp [runResponseQueue, h]

/-! ### Negative lengths -/

/-- `AppendInt` of a negative number appends a minus sign and the digits. -/
theorem appendInt_neg (dst : Bytes) (k : Nat) (h : 0 < k) :
    appendInt dst (-(Int.ofNat k)) = dst ++ 45 :: natDigits k := by
  unfold appendInt
  have hn : -(Int.ofNat k) < 0 := by
    simp only [Int.ofNat_eq_coe]
    omega
  have ha : (-(Int.ofNat k)).natAbs = k := by
    simp only [Int.ofNat_eq_coe, Int.natAbs_neg, Int.natAbs_ofNat]
  rw [if_pos hn, ha]

/-- `atoi` reads a minus sign and the decimal conversion of a number back to its negative, down
to the least `int`. -/
theorem atoi_neg_natDigits (k : Nat) (h : k ≤ 2 ^ 63) :
    atoi (45 :: natDigits k) = some (-(Int.ofNat k)) := by
  have hd := natDigits_digits k
  have hne := natDigits_ne_nil k
  have hval := natDigits_value k
  generalize natDigits k = l at hd hne hval
  cases l with
  | nil => exact absurd rfl hne
  | cons x t =>
    have hall : (x :: t).all (fun d => decide (48 ≤ d ∧ d ≤ 57)) = true := by
      rw [List.all_eq_true]
      intro d hd1
      simp only [decide_eq_true_eq]
      exact (digit_byte_le d).mpr (hd d hd1)
    unfold atoi
    simp only [List.head?_cons, or_true, if_true, List.tail_cons, hall, List.isEmpty_cons,
      Bool.not_true, Bool.or_self, Bool.false_eq_true, if_false, hval, h]

/-- `readLength` on a buffer that starts with the length line of a negative number. -/
theorem readLength_buffered_neg (p : UInt8) (k : Nat) (h0 : 0 < k) (h : k ≤ 2 ^ 63)
    (rest : Bytes) (conn : List Bytes) :
    readLength p ⟨appendInt [p] (-(Int.ofNat k)) ++ crlf ++ rest, conn⟩ =
      ([], some (-(Int.ofNat k)), ⟨rest, conn⟩) := by
  rw [appendInt_neg [p] k h0]
  have hb : ([p] ++ 45 :: natDigits k ++ crlf ++ rest) =
      p :: ((45 :: natDigits k) ++ 13 :: 10 :: rest) := by
    simp [crlf]
  rw [hb]
  have hnl : ∀ d ∈ 45 :: natDigits k, d ≠ 10 := by
    intro d hd
    rcases List.mem_cons.mp hd with e | hd
    · subst e; decide
    · exact natDigits_no_newline k d hd
  have hrl := readLine_buffered (45 :: natDigits k) rest conn hnl
  have hrb : Reader.readByte ⟨p :: ((45 :: natDigits k) ++ 13 :: 10 :: rest), conn⟩ =
      (some p, ⟨(45 :: natDigits k) ++ 13 :: 10 :: rest, conn⟩) := rfl
  unfold readLength
  rw [hrb]
  simp only [ne_eq, not_true_eq_false, if_false, hrl, atoi_neg_natDigits k h]
  simp

/-- The argument loop on a buffer that starts with a negative bulk length: `make([]byte, length)`
panics. -/
theorem readArgs_negative_length (n k : Nat) (h0 : 0 < k) (h : k ≤ 2 ^ 63) (rest : Bytes)
    (conn : List Bytes) (acc : List Bytes) :
    readArgs (n + 1) ⟨appendInt [36] (-(Int.ofNat k)) ++ crlf ++ rest, conn⟩ acc =
      ([], Sum.inr Stop.panicked, ⟨rest, conn⟩) := by
  have hneg : -(Int.ofNat k) < 0 := by
    simp only [Int.ofNat_eq_coe]
    omega
  simp only [readArgs, readLength_buffered_neg 36 k h0 h, hneg, if_true]

/-- One round of the read loop on a buffer that starts with a request whose count line and
first bulk lengths are as `encodeRequest` writes them, and whose next bulk length is negative:
the loop panics without a reply, whatever follows. -/
theorem negative_length_step {σ : Type}
    (run : σ → List Bytes → σ × List Event × Outcome) (fuel : Nat) (s : σ)
    (count k : Nat) (args : List Bytes) (rest : Bytes) (conn : List Bytes)
    (hc : args.length < count) (hcount : count < 2 ^ 63) (ha : ∀ a ∈ args, a.length < 2 ^ 63)
    (h0 : 0 < k) (h : k ≤ 2 ^ 63) :
    protocolLoop run (fuel + 1) s
        ⟨appendInt [42] (Int.ofNat count) ++ crlf ++ (args.map encodeArg).flatten ++
          appendInt [36] (-(Int.ofNat k)) ++ crlf ++ rest, conn⟩ =
      ([], Stop.panicked) := by
  have hb : appendInt [42] (Int.ofNat count) ++ crlf ++ (args.map encodeArg).flatten ++
        appendInt [36] (-(Int.ofNat k)) ++ crlf ++ rest =
      appendInt [42] (Int.ofNat count) ++ crlf ++ ((args.map encodeArg).flatten ++
        (appendInt [36] (-(Int.ofNat k)) ++ crlf ++ rest)) := by
    simp
  have hpeek : Reader.peek1 ⟨appendInt [42] (Int.ofNat count) ++ crlf ++
        ((args.map encodeArg).flatten ++ (appendInt [36] (-(Int.ofNat k)) ++ crlf ++ rest)),
        conn⟩ =
      (some 42, ⟨appendInt [42] (Int.ofNat count) ++ crlf ++
        ((args.map encodeArg).flatten ++ (appendInt [36] (-(Int.ofNat k)) ++ crlf ++ rest)),
        conn⟩) := by
    rw [appendInt_ofNat]
    rfl
  obtain ⟨m, hm⟩ : ∃ m, count = args.length + (m + 1) := ⟨count - args.length - 1, by omega⟩
  have hnat : (Int.ofNat count).toNat = args.length + (m + 1) := by
    rw [hm]
    rfl
  rw [hb, protocolLoop]
  simp only [hpeek, ne_eq, not_true_eq_false, if_false, readLength_buffered 42 count hcount,
    hnat, readArgs_consumes args (m + 1) [] _ conn ha, readArgs_negative_length m k h0 h]
  rfl

/-- One round of the read loop on a buffer that starts with a negative argument count. -/
theorem negative_count_step {σ : Type}
    (run : σ → List Bytes → σ × List Event × Outcome) (fuel : Nat) (s : σ)
    (k : Nat) (tail : Bytes) (conn : List Bytes) (h0 : 0 < k) (h : k ≤ 2 ^ 63) :
    protocolLoop run (fuel + 1) s ⟨appendInt [42] (-(Int.ofNat k)) ++ crlf ++ tail, conn⟩ =
      match run s [] with
      | (s1, trace, Outcome.ok) =>
        (Step.exec [] trace Outcome.ok :: (protocolLoop run fuel s1 ⟨tail, conn⟩).1,
          (protocolLoop run fuel s1 ⟨tail, conn⟩).2)
      | (_, trace, Outcome.failed msg) => ([Step.exec [] trace (Outcome.failed msg)], Stop.runFailed)
      | (_, trace, Outcome.panicked) => ([Step.exec [] trace Outcome.panicked], Stop.panicked) := by
  have hpeek : Reader.peek1 ⟨appendInt [42] (-(Int.ofNat k)) ++ crlf ++ tail, conn⟩ =
      (some 42, ⟨appendInt [42] (-(Int.ofNat k)) ++ crlf ++ tail, conn⟩) := by
    rw [appendInt_neg [42] k h0]
    rfl
  have hnat : (-(Int.ofNat k)).toNat = 0 := by
    simp only [Int.ofNat_eq_coe]
    omega
  rw [protocolLoop]
  simp only [hpeek, ne_eq, not_true_eq_false, if_false, readLength_buffered_neg 42 k h0 h, hnat,
    readArgs, List.append_nil, List.map_nil, List.nil_append]

/-- C21 (evaluation): a negative bulk length makes the parser panic. (a) On `*1\r\n$-1\r\n`
the length -1 reaches `make([]byte, length)`, which panics: no reply, no argument vector.
(b) So it is after a first argument that was read: `*2\r\n$4\r\nECHO\r\n$-5\r\nhello\r\n`.
(c) In general, when a request in the buffer has a count line and bulk lengths as written by a
client for fewer arguments than the count, and the next bulk length is any negative integer of
the range of `int`, the round of the read loop panics without a reply. (d) A negative argument
count is harmless: the argument loop is skipped, `runCommand` is called with no argument and
answers `missing command`, and the `PING` that follows is executed. -/
theorem negative_bulk_length_panics :
    protocolHandler (demoRun (demoEnv none)) () [bs "*1\r\n$-1\r\n"] = ([], Stop.panicked) ∧
    protocolHandler (demoRun (demoEnv none)) () [bs "*2\r\n$4\r\nECHO\r\n$-5\r\nhello\r\n"] =
      ([], Stop.panicked) ∧
    (∀ (run : Unit → List Bytes → Unit × List Event × Outcome) (fuel count k : Nat)
        (args : List Bytes) (rest : Bytes) (conn : List Bytes),
      args.length < count → count < 2 ^ 63 → (∀ a ∈ args, a.length < 2 ^ 63) →
      0 < k → k ≤ 2 ^ 63 →
      protocolLoop run (fuel + 1) ()
          ⟨appendInt [42] (Int.ofNat count) ++ crlf ++ (args.map encodeArg).flatten ++
            appendInt [36] (-(Int.ofNat k)) ++ crlf ++ rest, conn⟩ =
        ([], Stop.panicked)) ∧
    protocolHandler (demoRun (demoEnv none)) () [bs "*-1\r\nPING\r\n"] =
      ([Step.exec [] [Event.send (bs "-ERR Protocol error: missing command\r\n")] Outcome.ok,
        Step.exec [bs "PING"] [Event.call (bs "ping") [] false, Event.send (bs "+PONG\r\n")]
          Outcome.ok], Stop.closed) := by
  refine ⟨by decide, by decide, ?_, by decide⟩
  intro run fuel count k args rest conn hc hcount ha h0 h
  exact negative_length_step run fuel () count k args rest conn hc hcount ha h0 h

/-- An argument-count line that carries a negative integer of the range of `int`, wholly in the
buffer: the argument loop is skipped and `runCommand` is called with the empty argument vector;
when it returns no error the read loop goes on with the bytes after the line. -/
theorem protocolLoop_negative_count {σ : Type}
    (run : σ → List Bytes → σ × List Event × Outcome) (fuel : Nat) (s s1 : σ)
    (k : Nat) (tail : Bytes) (conn : List Bytes) (trace : List Event)
    (h0 : 0 < k) (h : k ≤ 2 ^ 63) (hrun : run s [] = (s1, trace, Outcome.ok)) :
    protocolLoop run (fuel + 1) s ⟨appendInt [42] (-(Int.ofNat k)) ++ crlf ++ tail, conn⟩ =
      (Step.exec [] trace Outcome.ok :: (protocolLoop run fuel s1 ⟨tail, conn⟩).1,
        (protocolLoop run fuel s1 ⟨tail, conn⟩).2) := by
  rw [negative_count_step run fuel s k tail conn h0 h, hrun]

/-- The count line `*-3\r\n`, followed by `PING\r\n`. -/
theorem protocolLoop_negative_count_witness :
    protocolLoop (demoRun (demoEnv none)) (0 + 1) ()
        ⟨appendInt [42] (-(Int.ofNat 3)) ++ crlf ++ bs "PING\r\n", []⟩ =
      (Step.exec [] [Event.send (bs "-ERR Protocol error: missing command\r\n")] Outcome.ok ::
          (protocolLoop (demoRun (demoEnv none)) 0 () ⟨bs "PING\r\n", []⟩).1,
        (protocolLoop (demoRun (demoEnv none)) 0 () ⟨bs "PING\r\n", []⟩).2) :=
  protocolLoop_negative_count (demoRun (demoEnv none)) 0 () () 3 (bs "PING\r\n") [] _
    (by decide) (by decide) (by decide)

end AngryFox
